import Mathlib

/-!
# go-hashset: a bucketed, sorted-array set of fixed-length hashes

Shallow embedding of `hashset.go`.

* Go `[]byte` values are `List Byte`; only their contents and lengths are
  observable in this program.
* Go `int` values are `Int`.  Every integer the program computes is bounded in
  absolute value by the length of a slice held in memory (or, in `Len`, by
  their sum), far below `2^63`, so no wrap-around can occur and none is
  modelled.  Loop counters that start at `0` and only move through valid
  indices are `Nat`.
* A Go panic is a `Fault`.  Pure queries return `Except Fault _`; mutating
  operations return a `Run`, the state at the moment the call returned or
  panicked together with the fault, if any.
* Slice expressions `s[lo:hi]` are checked against `len s`.  (Go checks
  against the capacity, which is at least the length; the program never
  relies on the difference.)
-/

namespace hashset

/-- One Go `byte`. -/
abbrev Byte := Fin 256

/-- The ways a call can panic. -/
inductive Fault where
  | indexOutOfRange
  | sliceOutOfRange
  | divideByZero
  | inconsistentSize
  deriving DecidableEq, Repr

deriving instance DecidableEq for Except

/-- Outcome of a mutating call: the state it left behind and the panic, if any. -/
structure Run (σ : Type) where
  state : σ
  fault : Option Fault

/-! ## Go built-ins and standard-library functions used by the program -/

/-- Go integer division `a / b`: truncates toward zero, panics on `b = 0`. -/
def goDiv (a b : Int) : Except Fault Int :=
  if b = 0 then .error .divideByZero else .ok (Int.tdiv a b)

/-- Go slice expression `s[lo:hi]`. -/
def slice (s : List Byte) (lo hi : Int) : Except Fault (List Byte) :=
  if 0 ≤ lo ∧ lo ≤ hi ∧ hi ≤ (s.length : Int) then
    .ok ((s.drop lo.toNat).take (hi.toNat - lo.toNat))
  else .error .sliceOutOfRange

/-- Go `copy(dst, src)`: the new contents of `dst`; the first
`min (len dst) (len src)` bytes come from `src`. -/
def copy (dst src : List Byte) : List Byte :=
  src.take dst.length ++ dst.drop src.length

/-- Go `copy(s[lo:hi], src)`: the new contents of `s`. -/
def copyAt (s : List Byte) (lo hi : Int) (src : List Byte) : Except Fault (List Byte) :=
  match slice s lo hi with
  | .error e => .error e
  | .ok w => .ok (s.take lo.toNat ++ copy w src ++ s.drop hi.toNat)

/-- Go `bytes.Compare`: `-1`, `0` or `1` by byte-wise lexicographic order. -/
def bytesCompare : List Byte → List Byte → Int
  | [], [] => 0
  | [], _ :: _ => -1
  | _ :: _, [] => 1
  | a :: as, b :: bs =>
    if a < b then -1 else if b < a then 1 else bytesCompare as bs

/-- Go `bytes.Equal`. -/
def bytesEqual (a b : List Byte) : Bool := decide (a = b)

/-- Go `binary.BigEndian.Uint16`: reads `b[0]`, `b[1]`; panics when `len b < 2`. -/
def Uint16 : List Byte → Except Fault Nat
  | b0 :: b1 :: _ => .ok (b0.val * 256 + b1.val)
  | _ => .error .indexOutOfRange

/-- Loop of Go `sort.Search`: `for i < j { h := (i+j)/2; if !f(h) { i = h+1 } else { j = h } }`.
The first argument bounds the number of iterations; `j - i` always suffices. -/
def searchLoop (f : Nat → Except Fault Bool) : Nat → Nat → Nat → Except Fault Nat
  | 0, i, _ => .ok i
  | fuel + 1, i, j =>
    if i < j then
      let h := (i + j) / 2
      match f h with
      | .error e => .error e
      | .ok false => searchLoop f fuel (h + 1) j
      | .ok true => searchLoop f fuel i h
    else .ok i

/-- Go `sort.Search(n, f)`: `i, j := 0, n`, then the loop; for `n ≤ 0` the
loop body never runs and the result is `0`. -/
def Search (n : Int) (f : Nat → Except Fault Bool) : Except Fault Nat :=
  searchLoop f n.toNat 0 n.toNat

/-! ## `hashSorter` -/

/-- The `hashSorter` struct: `buf` and `hashes` alias `Hashset.sortbuf` and one bucket. -/
structure hashSorter where
  buf : List Byte
  hashes : List Byte
  size : Int

/-- `func (p *hashSorter) Len() int`. -/
def hashSorter.Len (p : hashSorter) : Except Fault Int :=
  goDiv p.hashes.length p.size

/-- `func (p *hashSorter) Less(i, j int) bool`. -/
def hashSorter.Less (p : hashSorter) (i j : Nat) : Except Fault Bool :=
  let ioff : Int := i * p.size
  let joff : Int := j * p.size
  match slice p.hashes ioff (ioff + p.size) with
  | .error e => .error e
  | .ok a =>
    match slice p.hashes joff (joff + p.size) with
    | .error e => .error e
    | .ok b => .ok (decide (bytesCompare a b < 0))

/-- `func (p *hashSorter) Swap(i, j int)`: three `copy` calls through `buf`. -/
def hashSorter.Swap (p : hashSorter) (i j : Nat) : Run hashSorter :=
  let ioff : Int := i * p.size
  let joff : Int := j * p.size
  match slice p.hashes ioff (ioff + p.size) with
  | .error e => ⟨p, some e⟩
  | .ok a =>
    let p1 : hashSorter := { p with buf := copy p.buf a }
    match slice p1.hashes joff (joff + p1.size) with
    | .error e => ⟨p1, some e⟩
    | .ok b =>
      match copyAt p1.hashes ioff (ioff + p1.size) b with
      | .error e => ⟨p1, some e⟩
      | .ok hashes2 =>
        let p2 : hashSorter := { p1 with hashes := hashes2 }
        match copyAt p2.hashes joff (joff + p2.size) p2.buf with
        | .error e => ⟨p2, some e⟩
        | .ok hashes3 => ⟨{ p2 with hashes := hashes3 }, none⟩

/-- Inner loop of the library's insertion sort:
`for j := i; j > a && data.Less(j, j-1); j-- { data.Swap(j, j-1) }`. -/
def insertionInner (a : Nat) (p : hashSorter) : Nat → Run hashSorter
  | 0 => ⟨p, none⟩
  | j + 1 =>
    if a < j + 1 then
      match p.Less (j + 1) j with
      | .error e => ⟨p, some e⟩
      | .ok false => ⟨p, none⟩
      | .ok true =>
        match p.Swap (j + 1) j with
        | ⟨p1, some e⟩ => ⟨p1, some e⟩
        | ⟨p1, none⟩ => insertionInner a p1 j
    else ⟨p, none⟩

/-- Outer loop of the library's insertion sort, `for i := ...; i < b; i++`,
with `k` iterations left. -/
def insertionOuter (a : Nat) (p : hashSorter) (i : Nat) : Nat → Run hashSorter
  | 0 => ⟨p, none⟩
  | k + 1 =>
    match insertionInner a p i with
    | ⟨p1, some e⟩ => ⟨p1, some e⟩
    | ⟨p1, none⟩ => insertionOuter a p1 (i + 1) k

/-- Go `insertionSort(data, a, b)` from package `sort`. -/
def insertionSort (p : hashSorter) (a b : Nat) : Run hashSorter :=
  insertionOuter a p (a + 1) (b - (a + 1))

/-- Go `sort.Sort(&sorter)`: one call to `Len`, then calls to `Less` and `Swap`
that leave the records in ascending order.  The library's insertion sort
stands for the library's algorithm: `Less` identifies only byte-identical
records, so every sorting algorithm leaves the same bytes in `hashes`. -/
def sortSort (p : hashSorter) : Run hashSorter :=
  match p.Len with
  | .error e => ⟨p, some e⟩
  | .ok n => insertionSort p 0 n.toNat

/-- The record at position `m` of a `hashSorter`: the `size` bytes of `hashes`
from offset `m * size` on, the span `Less` and `Swap` address as record `m`. -/
def hashSorter.record (p : hashSorter) (m : Nat) : List Byte :=
  (p.hashes.drop (m * p.size.toNat)).take p.size.toNat

/-! ## `Hashset` -/

/-- The `Hashset` struct; `things` is the array of 65536 buckets, indexed `0 … 65535`. -/
structure Hashset where
  things : Nat → List Byte
  sortbuf : List Byte
  size : Int

/-- The zero value of `Hashset`, as Go constructs it. -/
def Hashset.fresh : Hashset :=
  { things := fun _ => [], sortbuf := [], size := 0 }

/-- Assignment `things[n] = b`. -/
def setBucket (things : Nat → List Byte) (n : Nat) (b : List Byte) : Nat → List Byte :=
  fun m => if m = n then b else things m

/-- Closure passed to `sort.Search` in `Contains`. -/
def Hashset.probe (hs : Hashset) (bin sub : List Byte) (i : Nat) : Except Fault Bool :=
  let off : Int := i * (hs.size - 2)
  match slice bin off (off + hs.size - 2) with
  | .error e => .error e
  | .ok r => .ok (decide (bytesCompare r sub ≥ 0))

/-- `func (hs *Hashset) Contains(h []byte) bool`. -/
def Hashset.Contains (hs : Hashset) (h : List Byte) : Except Fault Bool :=
  match Uint16 h with
  | .error e => .error e
  | .ok n =>
    let bin := hs.things n
    if bin.length = 0 then .ok false
    else
      match slice h 2 h.length with
      | .error e => .error e
      | .ok sub =>
        match goDiv bin.length (hs.size - 2) with
        | .error e => .error e
        | .ok cnt =>
          match Search cnt (hs.probe bin sub) with
          | .error e => .error e
          | .ok pos =>
            let off : Int := pos * (hs.size - 2)
            if off < bin.length then
              match slice bin off (off + hs.size - 2) with
              | .error e => .error e
              | .ok r => .ok (bytesEqual sub r)
            else .ok false

/-- The tail of `Add`, after the length check:
`n := int(binary.BigEndian.Uint16(h))`,
`hs.things[n] = append(hs.things[n], h[2:]...)`, then `sort.Sort` on a
`hashSorter{hs.sortbuf, hs.things[n], hs.size - 2}`, whose slices share their
storage with the container. -/
def Hashset.appendAndSort (hs : Hashset) (h : List Byte) : Run Hashset :=
  match Uint16 h with
  | .error e => ⟨hs, some e⟩
  | .ok n =>
    match slice h 2 h.length with
    | .error e => ⟨hs, some e⟩
    | .ok tl =>
      let hs2 : Hashset := { hs with things := setBucket hs.things n (hs.things n ++ tl) }
      match sortSort { buf := hs2.sortbuf, hashes := hs2.things n, size := hs2.size - 2 } with
      | ⟨s, fault⟩ =>
        ⟨{ hs2 with things := setBucket hs2.things n s.hashes, sortbuf := s.buf }, fault⟩

/-- `func (hs *Hashset) Add(h []byte)`. -/
def Hashset.Add (hs : Hashset) (h : List Byte) : Run Hashset :=
  match hs.Contains h with
  | .error e => ⟨hs, some e⟩
  | .ok true => ⟨hs, none⟩
  | .ok false =>
    if hs.size = 0 then
      Hashset.appendAndSort
        { hs with size := h.length, sortbuf := List.replicate h.length 0 } h
    else if hs.size ≠ h.length then ⟨hs, some .inconsistentSize⟩
    else hs.appendAndSort h

/-- Loop body of `Len`: `rv += len(a) / (hs.size - 2)`. -/
def Hashset.lenStep (hs : Hashset) (rv : Int) (n : Nat) : Except Fault Int :=
  match goDiv (hs.things n).length (hs.size - 2) with
  | .error e => .error e
  | .ok q => .ok (rv + q)

/-- `func (hs *Hashset) Len() int`: the loop over all 65536 buckets. -/
def Hashset.Len (hs : Hashset) : Except Fault Int :=
  (List.range 65536).foldlM hs.lenStep 0

/-- A sequence of `Add` calls; it stops at the first call that panics. -/
def Hashset.addAll (hs : Hashset) : List (List Byte) → Run Hashset
  | [] => ⟨hs, none⟩
  | v :: vs =>
    match hs.Add v with
    | ⟨hs1, some e⟩ => ⟨hs1, some e⟩
    | ⟨hs1, none⟩ => hs1.addAll vs

/-- States reachable from the fresh state through `Add` calls that return normally. -/
inductive Reachable : Hashset → Prop
  | fresh : Reachable Hashset.fresh
  | add (hs : Hashset) (v : List Byte) :
      Reachable hs → (hs.Add v).fault = none → Reachable (hs.Add v).state

/-- A bucket read as consecutive `s`-byte payloads, the way `hashSorter` and
`Contains` address it: `len bin / s` records, record `i` at offset `i * s`. -/
def payloads (bin : List Byte) (s : Int) : List (List Byte) :=
  (List.range (Int.tdiv bin.length s).toNat).map
    (fun i => (bin.drop (i * s.toNat)).take s.toNat)


/-- Bucket `bin` is the concatenation of the records `recs`, each `s` bytes
long, in strictly ascending byte-wise order. -/
def BucketOf (s : Nat) (bin : List Byte) (recs : List (List Byte)) : Prop :=
  bin = recs.flatten ∧ (∀ r ∈ recs, r.length = s) ∧ List.Sorted (· < ·) recs

/-- Representation invariant at payload width `s ≥ 1`: the container is
either untouched or holds elements of length `s + 2` with a scratch buffer of
that length, and every bucket consists of whole, strictly ascending payloads. -/
def WFat (s : Nat) (hs : Hashset) : Prop :=
  1 ≤ s ∧
  ((hs.size = 0 ∧ ∀ n, hs.things n = []) ∨
    (hs.size = (s : Int) + 2 ∧ hs.sortbuf.length = s + 2)) ∧
  ∀ n, ∃ recs, BucketOf s (hs.things n) recs

/-- Number of records over all 65536 buckets at payload width `s`. -/
def recordCount (s : Nat) (things : Nat → List Byte) : Int :=
  ∑ m ∈ Finset.range 65536, Int.tdiv ((things m).length : Int) (s : Int)

/-- The state `hs` represents exactly the values `vs`, all of length `s + 2`:
bucket `256 * b0 + b1` holds the tails of the values that start with `b0, b1`. -/
def Rep (s : Nat) (hs : Hashset) (vs : List (List Byte)) : Prop :=
  WFat s hs ∧ (∀ v ∈ vs, v.length = s + 2) ∧ (hs.size = 0 → vs = []) ∧
  (∀ n, ∃ recs, BucketOf s (hs.things n) recs ∧
    ∀ (c0 c1 : Byte) (tl : List Byte), c0.val * 256 + c1.val = n →
      (tl ∈ recs ↔ (c0 :: c1 :: tl) ∈ vs)) ∧
  recordCount s hs.things = (vs.toFinset.card : Int)


/-! ## Byte-wise order -/

theorem lex_cons_cons (x y : Byte) (xs ys : List Byte) :
    (x :: xs < y :: ys) ↔ (x < y ∨ (x = y ∧ xs < ys)) := by
  constructor
  · intro h
    cases h with
    | cons h => exact Or.inr ⟨rfl, h⟩
    | rel h => exact Or.inl h
  · rintro (h | ⟨rfl, h⟩)
    · exact List.Lex.rel h
    · exact List.Lex.cons h

theorem bytesCompare_lt_iff (a b : List Byte) : bytesCompare a b < 0 ↔ a < b := by
  induction a generalizing b with
  | nil =>
    cases b with
    | nil => simp [bytesCompare]
    | cons y ys => simp [bytesCompare, List.nil_lt_cons]
  | cons x xs ih =>
    cases b with
    | nil => simp [bytesCompare]
    | cons y ys =>
      rw [lex_cons_cons]
      unfold bytesCompare
      rcases lt_trichotomy x y with h | h | h
      · simp [h]
      · subst h
        simp [ih]
      · have h1 : ¬ x < y := not_lt.mpr (le_of_lt h)
        simp [h1, h, ne_of_gt h]

theorem bytesCompare_ge_iff (a b : List Byte) : bytesCompare a b ≥ 0 ↔ b ≤ a := by
  rw [ge_iff_le, ← not_lt, bytesCompare_lt_iff, not_lt]

/-! ## Slices and copies inside a concatenation -/

theorem slice_mid (A x B : List Byte) (lo hi : Int)
    (h1 : lo = A.length) (h2 : hi = lo + x.length) :
    slice (A ++ x ++ B) lo hi = .ok x := by
  subst h1 h2
  have hc : (0 : Int) ≤ (A.length : Int) ∧ (A.length : Int) ≤ (A.length : Int) + x.length ∧
      (A.length : Int) + x.length ≤ ((A ++ x ++ B).length : Int) := by
    simp only [List.length_append, Nat.cast_add]
    omega
  unfold slice
  rw [if_pos hc]
  have e1 : ((A.length : Int) + (x.length : Int)).toNat - (A.length : Int).toNat = x.length := by
    omega
  rw [e1, Int.toNat_ofNat, List.append_assoc, List.drop_left]
  simp

theorem copyAt_mid (A w B src : List Byte) (lo hi : Int)
    (h1 : lo = A.length) (h2 : hi = lo + w.length) :
    copyAt (A ++ w ++ B) lo hi src = .ok (A ++ copy w src ++ B) := by
  unfold copyAt
  rw [slice_mid A w B lo hi h1 h2]
  subst h1 h2
  have e1 : ((A.length : Int) + (w.length : Int)).toNat = (A ++ w).length := by
    simp only [List.length_append]; omega
  simp only [e1, Int.toNat_ofNat, List.drop_left]
  rw [List.append_assoc A w B, List.take_left]

theorem copy_same_length (w src : List Byte) (h : src.length = w.length) : copy w src = src := by
  unfold copy
  rw [← h, List.take_length, List.drop_of_length_le (le_of_eq h.symm)]
  simp

theorem copy_into_buf (buf a : List Byte) (h : a.length ≤ buf.length) :
    copy buf a = a ++ buf.drop a.length := by
  unfold copy
  rw [List.take_of_length_le h]

theorem copy_from_buf (w x rest : List Byte) (h : x.length = w.length) :
    copy w (x ++ rest) = x := by
  unfold copy
  rw [← h, List.take_left, List.drop_of_length_le (by rw [List.length_append]; omega)]
  simp

/-! ## `hashSorter` on a bucket made of whole records -/

theorem less_adjacent (buf A y x B : List Byte) (s j : Nat)
    (hA : A.length = j * s) (hy : y.length = s) (hx : x.length = s) :
    hashSorter.Less ⟨buf, A ++ y ++ x ++ B, s⟩ (j + 1) j = .ok (decide (x < y)) := by
  unfold hashSorter.Less
  simp only
  have e1 : slice (A ++ y ++ x ++ B) (((j + 1 : Nat) : Int) * (s : Int))
      (((j + 1 : Nat) : Int) * (s : Int) + (s : Int)) = .ok x := by
    apply slice_mid (A ++ y) x B
    · simp only [List.length_append, hA, hy]; push_cast; ring
    · rw [hx]
  have e2 : slice (A ++ y ++ x ++ B) ((j : Int) * (s : Int))
      ((j : Int) * (s : Int) + (s : Int)) = .ok y := by
    rw [List.append_assoc (A ++ y) x B]
    apply slice_mid A y (x ++ B)
    · rw [hA]; push_cast; ring
    · rw [hy]
  rw [e1, e2]
  simp only [bytesCompare_lt_iff]

theorem swap_adjacent (buf A y x B : List Byte) (s j : Nat)
    (hA : A.length = j * s) (hy : y.length = s) (hx : x.length = s) (hb : s ≤ buf.length) :
    hashSorter.Swap ⟨buf, A ++ y ++ x ++ B, s⟩ (j + 1) j
      = ⟨⟨x ++ buf.drop s, A ++ x ++ y ++ B, s⟩, none⟩ := by
  unfold hashSorter.Swap
  simp only
  have hi : (((j + 1 : Nat) : Int) * (s : Int)) = ((A ++ y).length : Int) := by
    simp only [List.length_append, hA, hy]; push_cast; ring
  have hj : ((j : Int) * (s : Int)) = (A.length : Int) := by
    rw [hA]; push_cast; ring
  have e1 : slice (A ++ y ++ x ++ B) (((j + 1 : Nat) : Int) * (s : Int))
      (((j + 1 : Nat) : Int) * (s : Int) + (s : Int)) = .ok x :=
    slice_mid (A ++ y) x B _ _ hi (by rw [hx])
  have e2 : slice (A ++ y ++ x ++ B) ((j : Int) * (s : Int))
      ((j : Int) * (s : Int) + (s : Int)) = .ok y := by
    rw [List.append_assoc (A ++ y) x B]
    exact slice_mid A y (x ++ B) _ _ hj (by rw [hy])
  have e3 : copyAt (A ++ y ++ x ++ B) (((j + 1 : Nat) : Int) * (s : Int))
      (((j + 1 : Nat) : Int) * (s : Int) + (s : Int)) y = .ok (A ++ y ++ y ++ B) := by
    rw [copyAt_mid (A ++ y) x B y _ _ hi (by rw [hx]), copy_same_length x y (by rw [hx, hy])]
  have e4 : copyAt (A ++ y ++ y ++ B) ((j : Int) * (s : Int))
      ((j : Int) * (s : Int) + (s : Int)) (x ++ buf.drop s) = .ok (A ++ x ++ y ++ B) := by
    rw [List.append_assoc (A ++ y) y B, copyAt_mid A y (y ++ B) _ _ _ hj (by rw [hy]),
      copy_from_buf y x _ (by rw [hx, hy])]
    simp
  rw [e1]
  simp only
  rw [e2]
  simp only
  rw [e3]
  simp only
  rw [copy_into_buf buf x (by rw [hx]; exact hb), hx, e4]

theorem length_flatten_uniform (recs : List (List Byte)) (s : Nat)
    (h : ∀ r ∈ recs, r.length = s) : recs.flatten.length = recs.length * s := by
  induction recs with
  | nil => simp
  | cons r rs ih =>
    have h1 : r.length = s := h r (List.mem_cons_self _ _)
    have h2 : ∀ r ∈ rs, r.length = s := fun r hr => h r (List.mem_cons_of_mem _ hr)
    simp only [List.flatten_cons, List.length_append, List.length_cons, ih h2, h1]
    ring

theorem sorted_snoc (pre : List (List Byte)) (x : List Byte)
    (hs : List.Sorted (· ≤ ·) pre) (hx : ∀ r ∈ pre, r ≤ x) :
    List.Sorted (· ≤ ·) (pre ++ [x]) := by
  unfold List.Sorted at *
  rw [List.pairwise_append]
  refine ⟨hs, List.pairwise_singleton _ _, ?_⟩
  intro a ha b hb
  rw [List.mem_singleton] at hb
  subst hb
  exact hx a ha

theorem sorted_snoc_inv (pre : List (List Byte)) (y : List Byte)
    (hs : List.Sorted (· ≤ ·) (pre ++ [y])) :
    List.Sorted (· ≤ ·) pre ∧ ∀ r ∈ pre, r ≤ y := by
  unfold List.Sorted at *
  rw [List.pairwise_append] at hs
  exact ⟨hs.1, fun r hr => hs.2.2 r hr y (List.mem_singleton_self y)⟩

/-- The inner loop started at the record after a sorted prefix inserts that
record into the prefix and leaves the later records alone. -/
theorem insertionInner_spec (s : Nat) (pre : List (List Byte)) :
    ∀ (x : List Byte) (post : List (List Byte)) (buf : List Byte),
      (∀ r ∈ pre, r.length = s) → x.length = s → s ≤ buf.length →
      ∃ ins buf1, insertionInner 0 ⟨buf, (pre ++ x :: post).flatten, s⟩ pre.length
          = ⟨⟨buf1, (ins ++ post).flatten, s⟩, none⟩
        ∧ buf1.length = buf.length ∧ ins.Perm (pre ++ [x])
        ∧ (List.Sorted (· ≤ ·) pre → List.Sorted (· ≤ ·) ins) := by
  induction pre using List.reverseRecOn with
  | nil =>
    intro x post buf _ _ _
    refine ⟨[x], buf, ?_, rfl, by simp, fun _ => List.sorted_singleton x⟩
    simp [insertionInner]
  | append_singleton pre y ih =>
    intro x post buf hpre hx hb
    have hpre1 : ∀ r ∈ pre, r.length = s := fun r hr => hpre r (by simp [hr])
    have hy : y.length = s := hpre y (by simp)
    have hA : pre.flatten.length = pre.length * s := length_flatten_uniform pre s hpre1
    have hfl : (pre ++ [y] ++ x :: post).flatten
        = pre.flatten ++ y ++ x ++ post.flatten := by simp
    rw [List.length_append, List.length_singleton, hfl]
    unfold insertionInner
    rw [if_pos (Nat.succ_pos _), less_adjacent buf _ y x _ s pre.length hA hy hx]
    by_cases hlt : x < y
    · rw [decide_eq_true hlt]
      simp only
      rw [swap_adjacent buf _ y x _ s pre.length hA hy hx hb]
      simp only
      have hfl2 : pre.flatten ++ x ++ y ++ post.flatten = (pre ++ x :: (y :: post)).flatten := by
        simp
      rw [hfl2]
      obtain ⟨ins, buf1, he, hbl, hperm, hsorted⟩ :=
        ih x (y :: post) (x ++ buf.drop s) hpre1 hx (by simp [hx])
      refine ⟨ins ++ [y], buf1, ?_, ?_, ?_, ?_⟩
      · rw [he]; simp
      · rw [hbl]; simp [hx]; omega
      · calc (ins ++ [y]).Perm ((pre ++ [x]) ++ [y]) := List.Perm.append_right _ hperm
          _ = pre ++ ([x] ++ [y]) := by simp
          _ |>.Perm (pre ++ ([y] ++ [x])) :=
              List.Perm.append_left _ (List.perm_append_comm)
          _ = pre ++ [y] ++ [x] := by simp
      · intro hs
        obtain ⟨hs1, hle⟩ := sorted_snoc_inv pre y hs
        apply sorted_snoc ins y (hsorted hs1)
        intro r hr
        have := hperm.mem_iff.mp hr
        rw [List.mem_append, List.mem_singleton] at this
        rcases this with h | h
        · exact hle r h
        · rw [h]; exact le_of_lt hlt
    · rw [decide_eq_false hlt]
      simp only
      refine ⟨pre ++ [y] ++ [x], buf, ?_, rfl, List.Perm.refl _, ?_⟩
      · simp
      · intro hs
        apply sorted_snoc _ x hs
        intro r hr
        obtain ⟨_, hle⟩ := sorted_snoc_inv pre y hs
        rw [List.mem_append, List.mem_singleton] at hr
        rcases hr with h | h
        · exact le_trans (hle r h) (not_lt.mp hlt)
        · rw [h]; exact not_lt.mp hlt

/-- The outer loop, entered with a sorted prefix, sorts all records. -/
theorem insertionOuter_spec (s : Nat) (rest : List (List Byte)) :
    ∀ (done : List (List Byte)) (buf : List Byte),
      (∀ r ∈ done, r.length = s) → (∀ r ∈ rest, r.length = s) → s ≤ buf.length →
      List.Sorted (· ≤ ·) done →
      ∃ out buf1, insertionOuter 0 ⟨buf, (done ++ rest).flatten, s⟩ done.length rest.length
          = ⟨⟨buf1, out.flatten, s⟩, none⟩
        ∧ buf1.length = buf.length ∧ out.Perm (done ++ rest) ∧ List.Sorted (· ≤ ·) out := by
  induction rest with
  | nil =>
    intro done buf _ _ _ hs
    exact ⟨done, buf, by simp [insertionOuter], rfl, by simp, hs⟩
  | cons x rest ih =>
    intro done buf hd hr hb hs
    have hx : x.length = s := hr x (List.mem_cons_self _ _)
    have hr1 : ∀ r ∈ rest, r.length = s := fun r h => hr r (List.mem_cons_of_mem _ h)
    obtain ⟨ins, buf1, he, hbl, hperm, hsorted⟩ := insertionInner_spec s done x rest buf hd hx hb
    have hlen : ins.length = done.length + 1 := by
      rw [hperm.length_eq]; simp
    have hins : ∀ r ∈ ins, r.length = s := by
      intro r h
      have := hperm.mem_iff.mp h
      rw [List.mem_append, List.mem_singleton] at this
      rcases this with h | h
      · exact hd r h
      · rw [h]; exact hx
    obtain ⟨out, buf2, he2, hbl2, hperm2, hsorted2⟩ :=
      ih ins buf1 hins hr1 (by rw [hbl]; exact hb) (hsorted hs)
    refine ⟨out, buf2, ?_, by rw [hbl2, hbl], ?_, hsorted2⟩
    · rw [List.length_cons]
      unfold insertionOuter
      rw [he]
      simp only
      rw [← hlen, he2]
    · calc out.Perm (ins ++ rest) := hperm2
        _ |>.Perm ((done ++ [x]) ++ rest) := List.Perm.append_right _ hperm
        _ = done ++ x :: rest := by simp

/-- `sort.Sort` on a bucket made of whole `s`-byte records (`s ≥ 1`) returns
normally with the records rearranged into ascending order. -/
theorem sortSort_spec (s : Nat) (hs : 1 ≤ s) (recs : List (List Byte)) (buf : List Byte)
    (hr : ∀ r ∈ recs, r.length = s) (hb : s ≤ buf.length) :
    ∃ out buf1, sortSort ⟨buf, recs.flatten, s⟩ = ⟨⟨buf1, out.flatten, s⟩, none⟩
      ∧ buf1.length = buf.length ∧ out.Perm recs ∧ List.Sorted (· ≤ ·) out := by
  have hlen : hashSorter.Len ⟨buf, recs.flatten, s⟩ = .ok (recs.length : Int) := by
    unfold hashSorter.Len goDiv
    simp only
    rw [if_neg (by omega), length_flatten_uniform recs s hr]
    congr 1
    push_cast
    exact Int.mul_tdiv_cancel _ (by omega)
  unfold sortSort
  rw [hlen]
  simp only [Int.toNat_ofNat]
  unfold insertionSort
  cases recs with
  | nil => exact ⟨[], buf, by simp [insertionOuter], rfl, List.Perm.refl _, List.sorted_nil⟩
  | cons r rest =>
    have h1 : ∀ x ∈ [r], x.length = s := by
      intro x hx; rw [List.mem_singleton] at hx; rw [hx]; exact hr r (List.mem_cons_self _ _)
    have h2 : ∀ x ∈ rest, x.length = s := fun x hx => hr x (List.mem_cons_of_mem _ hx)
    obtain ⟨out, buf1, he, hbl, hperm, hsorted⟩ :=
      insertionOuter_spec s rest [r] buf h1 h2 hb (List.sorted_singleton r)
    refine ⟨out, buf1, ?_, hbl, by simpa using hperm, hsorted⟩
    simpa using he

/-- Two ascending arrangements of the same records are equal, so the bytes
`sort.Sort` leaves in `hashes` do not depend on the sorting algorithm. -/
theorem ascending_arrangement_unique (recs out1 out2 : List (List Byte))
    (h1 : out1.Perm recs) (h2 : out2.Perm recs)
    (s1 : List.Sorted (· ≤ ·) out1) (s2 : List.Sorted (· ≤ ·) out2) :
    out1.flatten = out2.flatten := by
  rw [List.eq_of_perm_of_sorted (h1.trans h2.symm) s1 s2]

/-! ## Binary search -/

/-- The loop of `sort.Search` on a monotone predicate returns its lower bound. -/
theorem searchLoop_spec (f : Nat → Except Fault Bool) (g : Nat → Bool) (n : Nat)
    (hf : ∀ t, t < n → f t = .ok (g t))
    (mono : ∀ a b, a ≤ b → b < n → g a = true → g b = true) :
    ∀ (fuel i j : Nat), j - i ≤ fuel → i ≤ j → j ≤ n →
      (∀ t, t < i → g t = false) → (∀ t, j ≤ t → t < n → g t = true) →
      ∃ p, searchLoop f fuel i j = .ok p ∧ p ≤ n
        ∧ (∀ t, t < p → g t = false) ∧ (∀ t, p ≤ t → t < n → g t = true) := by
  intro fuel
  induction fuel with
  | zero =>
    intro i j hfuel hij hjn hlo hhi
    have : i = j := by omega
    subst this
    exact ⟨i, by simp [searchLoop], hjn, hlo, hhi⟩
  | succ fuel ih =>
    intro i j hfuel hij hjn hlo hhi
    unfold searchLoop
    by_cases hlt : i < j
    · rw [if_pos hlt]
      have hh1 : i ≤ (i + j) / 2 := by omega
      have hh2 : (i + j) / 2 < j := by omega
      simp only
      rw [hf _ (by omega)]
      cases hg : g ((i + j) / 2) with
      | false =>
        simp only
        apply ih _ _ (by omega) (by omega) hjn _ hhi
        intro t ht
        cases hgt : g t with
        | false => rfl
        | true =>
          have := mono t ((i + j) / 2) (by omega) (by omega) hgt
          rw [hg] at this
          exact absurd this (by simp)
      | true =>
        simp only
        apply ih _ _ (by omega) (by omega) (by omega) hlo
        intro t ht1 ht2
        exact mono _ t ht1 ht2 hg
    · rw [if_neg hlt]
      have : i = j := by omega
      subst this
      exact ⟨i, rfl, hjn, hlo, hhi⟩

theorem slice_record (recs : List (List Byte)) (s : Nat) (hr : ∀ r ∈ recs, r.length = s)
    (t : Nat) (ht : t < recs.length) (lo hi : Int) (hlo : lo = (t : Int) * (s : Int))
    (hhi : hi = lo + (s : Int)) :
    slice recs.flatten lo hi = .ok recs[t] := by
  have hsplit : recs.flatten
      = (recs.take t).flatten ++ recs[t] ++ (recs.drop (t + 1)).flatten := by
    calc recs.flatten = (recs.take t ++ recs[t] :: recs.drop (t + 1)).flatten := by
          rw [← List.drop_eq_getElem_cons ht, List.take_append_drop]
      _ = _ := by rw [List.flatten_append, List.flatten_cons, List.append_assoc]
  have hlen : (recs.take t).flatten.length = t * s := by
    rw [length_flatten_uniform _ s (fun r h => hr r (List.mem_of_mem_take h))]
    rw [List.length_take, Nat.min_eq_left (le_of_lt ht)]
  rw [hsplit]
  apply slice_mid
  · rw [hlen, hlo]; push_cast; ring
  · rw [hhi, hr _ (List.getElem_mem ht)]


theorem sorted_getElem_le (recs : List (List Byte)) (h : List.Sorted (· < ·) recs)
    (a b : Nat) (hab : a ≤ b) (ha : a < recs.length) (hb : b < recs.length) :
    recs[a] ≤ recs[b] := by
  rcases Nat.eq_or_lt_of_le hab with h1 | h1
  · subst h1; exact le_refl _
  · exact le_of_lt (List.pairwise_iff_getElem.mp h a b ha hb h1)

theorem slice_tail (b0 b1 : Byte) (tl : List Byte) :
    slice (b0 :: b1 :: tl) 2 ((b0 :: b1 :: tl).length : Int) = .ok tl := by
  have := slice_mid [b0, b1] tl [] 2 ((b0 :: b1 :: tl).length : Int) (by simp)
    (by simp only [List.length_cons]; push_cast; ring)
  simpa using this

/-- On a bucket of whole, strictly ascending records the search of `Contains`
followed by the equality test decides membership of the query's tail. -/
theorem contains_bucket (hs : Hashset) (s : Nat) (hs1 : 1 ≤ s) (hsz : hs.size - 2 = (s : Int))
    (b0 b1 : Byte) (tl : List Byte) (recs : List (List Byte))
    (hb : BucketOf s (hs.things (b0.val * 256 + b1.val)) recs) :
    hs.Contains (b0 :: b1 :: tl) = .ok (decide (tl ∈ recs)) := by
  obtain ⟨hbin, hlen, hsorted⟩ := hb
  have hflen := length_flatten_uniform recs s hlen
  unfold Hashset.Contains
  simp only [Uint16]
  rw [hbin]
  by_cases hk : recs.flatten.length = 0
  · rw [if_pos hk]
    have : recs = [] := by
      rw [hflen] at hk
      rcases Nat.mul_eq_zero.mp hk with h | h
      · exact List.length_eq_zero.mp h
      · omega
    simp [this]
  · rw [if_neg hk, slice_tail]
    simp only
    have hdiv : goDiv (recs.flatten.length : Int) (hs.size - 2) = .ok (recs.length : Int) := by
      unfold goDiv
      rw [hsz, if_neg (by omega), hflen]
      congr 1
      push_cast
      exact Int.mul_tdiv_cancel _ (by omega)
    rw [hdiv]
    simp only
    have hf : ∀ t, t < recs.length →
        hs.probe recs.flatten tl t = .ok (decide (tl ≤ recs.getD t [])) := by
      intro t ht
      unfold Hashset.probe
      simp only
      rw [slice_record recs s hlen t ht _ _ (by rw [hsz]) (by omega)]
      simp only [bytesCompare_ge_iff, List.getD_eq_getElem recs [] ht]
    have mono : ∀ a b, a ≤ b → b < recs.length →
        decide (tl ≤ recs.getD a []) = true → decide (tl ≤ recs.getD b []) = true := by
      intro a b hab hb h
      rw [decide_eq_true_eq] at h ⊢
      rw [List.getD_eq_getElem recs [] (lt_of_le_of_lt hab hb)] at h
      rw [List.getD_eq_getElem recs [] hb]
      exact le_trans h (sorted_getElem_le recs hsorted a b hab (lt_of_le_of_lt hab hb) hb)
    obtain ⟨p, hp, hpn, hlo, hhi⟩ := searchLoop_spec _ _ recs.length hf mono recs.length 0
      recs.length (by omega) (by omega) (le_refl _) (by intro t ht; omega)
      (by intro t h1 h2; omega)
    unfold Search
    rw [Int.toNat_ofNat, hp]
    simp only
    by_cases hpk : p < recs.length
    · have hoff : (p : Int) * (hs.size - 2) < (recs.flatten.length : Int) := by
        rw [hsz, hflen]
        push_cast
        exact mul_lt_mul_of_pos_right (by exact_mod_cast hpk) (by exact_mod_cast hs1)
      rw [if_pos hoff, slice_record recs s hlen p hpk _ _ (by rw [hsz]) (by omega)]
      simp only [bytesEqual]
      congr 1
      rw [decide_eq_decide]
      constructor
      · intro h; rw [h]; exact List.getElem_mem hpk
      · intro h
        obtain ⟨t, ht, rfl⟩ := List.mem_iff_getElem.mp h
        have hpt : p ≤ t := by
          by_contra hc
          have := hlo t (by omega)
          rw [List.getD_eq_getElem recs [] ht] at this
          simp at this
        have h1 := sorted_getElem_le recs hsorted p t hpt hpk ht
        have h2 := hhi p (le_refl _) hpk
        rw [List.getD_eq_getElem recs [] hpk, decide_eq_true_eq] at h2
        have h3 : recs[p] ≤ recs[t] := h1
        rcases Nat.eq_or_lt_of_le hpt with e | e
        · subst e; rfl
        · have h4 := List.pairwise_iff_getElem.mp hsorted p t hpk ht e
          exact absurd h2 (not_le.mpr h4)
    · have hoff : ¬ (p : Int) * (hs.size - 2) < (recs.flatten.length : Int) := by
        rw [hsz, hflen]
        have : p = recs.length := by omega
        subst this
        push_cast
        omega
      rw [if_neg hoff]
      congr 1
      symm
      rw [decide_eq_false_iff_not]
      intro h
      obtain ⟨t, ht, rfl⟩ := List.mem_iff_getElem.mp h
      have := hlo t (by omega)
      rw [List.getD_eq_getElem recs [] ht] at this
      simp at this


/-! ## `Contains` and `Add` on well-formed states -/

theorem contains_short (hs : Hashset) (v : List Byte) (h : v.length < 2) :
    hs.Contains v = .error .indexOutOfRange := by
  match v, h with
  | [], _ => rfl
  | [_], _ => rfl

theorem contains_empty (hs : Hashset) (b0 b1 : Byte) (tl : List Byte)
    (h : hs.things (b0.val * 256 + b1.val) = []) :
    hs.Contains (b0 :: b1 :: tl) = .ok false := by
  unfold Hashset.Contains
  simp [Uint16, h]

theorem setBucket_same (things : Nat → List Byte) (n : Nat) (b : List Byte) :
    setBucket things n b n = b := by
  simp [setBucket]

theorem setBucket_other (things : Nat → List Byte) (n m : Nat) (b : List Byte) (h : m ≠ n) :
    setBucket things n b m = things m := by
  simp [setBucket, h]

theorem setBucket_setBucket (things : Nat → List Byte) (n : Nat) (b c : List Byte) :
    setBucket (setBucket things n b) n c = setBucket things n c := by
  funext m
  by_cases h : m = n <;> simp [setBucket, h]

/-- Appending one new record to a well-formed bucket and sorting yields the
bucket with that record inserted at its place. -/
theorem sort_append (s : Nat) (hs1 : 1 ≤ s) (bin : List Byte) (recs : List (List Byte))
    (hb : BucketOf s bin recs) (tl buf : List Byte) (htl : tl.length = s)
    (hnot : tl ∉ recs) (hbuf : s ≤ buf.length) :
    ∃ buf1, sortSort ⟨buf, bin ++ tl, s⟩
        = ⟨⟨buf1, (recs.orderedInsert (· ≤ ·) tl).flatten, s⟩, none⟩
      ∧ buf1.length = buf.length
      ∧ BucketOf s (recs.orderedInsert (· ≤ ·) tl).flatten (recs.orderedInsert (· ≤ ·) tl) := by
  obtain ⟨hbin, hlen, hsorted⟩ := hb
  have hlen1 : ∀ r ∈ recs ++ [tl], r.length = s := by
    intro r hr
    rw [List.mem_append, List.mem_singleton] at hr
    rcases hr with h | h
    · exact hlen r h
    · rw [h]; exact htl
  have hfl : bin ++ tl = (recs ++ [tl]).flatten := by rw [hbin]; simp
  obtain ⟨out, buf1, he, hbl, hperm, hso⟩ := sortSort_spec s hs1 (recs ++ [tl]) buf hlen1 hbuf
  have hp2 : (recs.orderedInsert (· ≤ ·) tl).Perm (recs ++ [tl]) :=
    (List.perm_orderedInsert _ tl recs).trans (List.perm_append_singleton tl recs).symm
  have hs2 : List.Sorted (· ≤ ·) (recs.orderedInsert (· ≤ ·) tl) :=
    List.Sorted.orderedInsert tl recs hsorted.le_of_lt
  have heq : out = recs.orderedInsert (· ≤ ·) tl :=
    List.eq_of_perm_of_sorted (hperm.trans hp2.symm) hso hs2
  refine ⟨buf1, ?_, hbl, rfl, ?_, ?_⟩
  · rw [hfl, he, heq]
  · intro r hr
    rw [List.mem_orderedInsert] at hr
    rcases hr with h | h
    · rw [h]; exact htl
    · exact hlen r h
  · apply hs2.lt_of_le
    rw [(List.perm_orderedInsert _ tl recs).nodup_iff, List.nodup_cons]
    exact ⟨hnot, hsorted.nodup⟩

/-- `Add` of a value that is not yet stored, on a state that is either
untouched or already holds values of the same length. -/
theorem add_insert (hs : Hashset) (b0 b1 : Byte) (tl : List Byte) (s : Nat) (hs1 : 1 ≤ s)
    (htl : tl.length = s) (hc : hs.Contains (b0 :: b1 :: tl) = .ok false)
    (hsize : hs.size = 0 ∨ (hs.size = (s : Int) + 2 ∧ hs.sortbuf.length = s + 2))
    (recs : List (List Byte)) (hb : BucketOf s (hs.things (b0.val * 256 + b1.val)) recs)
    (hnot : tl ∉ recs) :
    ∃ buf1, hs.Add (b0 :: b1 :: tl)
        = ⟨{ things := setBucket hs.things (b0.val * 256 + b1.val)
                (recs.orderedInsert (· ≤ ·) tl).flatten,
             sortbuf := buf1, size := (s : Int) + 2 }, none⟩
      ∧ buf1.length = s + 2 := by
  have hlenv : (((b0 :: b1 :: tl).length : Nat) : Int) = (s : Int) + 2 := by
    simp only [List.length_cons, htl]; push_cast; ring
  unfold Hashset.Add
  rw [hc]
  simp only
  rcases hsize with h0 | ⟨h1, h2⟩
  · rw [if_pos h0]
    unfold Hashset.appendAndSort
    simp only [Uint16, slice_tail, setBucket_same, setBucket_setBucket]
    obtain ⟨buf1, he, hbl, _⟩ := sort_append s hs1 _ recs hb tl
      (List.replicate (b0 :: b1 :: tl).length 0) htl hnot (by simp; omega)
    have e : (((b0 :: b1 :: tl).length : Nat) : Int) - 2 = (s : Int) := by omega
    rw [e, he]
    refine ⟨buf1, ?_, ?_⟩
    · simp only [hlenv]
    · rw [hbl]; simp [htl]
  · rw [if_neg (by omega), if_neg (by rw [hlenv]; simp [h1])]
    unfold Hashset.appendAndSort
    simp only [Uint16, slice_tail, setBucket_same, setBucket_setBucket]
    obtain ⟨buf1, he, hbl, _⟩ := sort_append s hs1 _ recs hb tl hs.sortbuf htl hnot (by omega)
    have e : hs.size - 2 = (s : Int) := by omega
    rw [e, he]
    refine ⟨buf1, ?_, ?_⟩
    · simp only [h1]
    · rw [hbl, h2]

theorem bucketOf_nil (s : Nat) : BucketOf s [] [] :=
  ⟨rfl, by simp, List.sorted_nil⟩

theorem bucketOf_empty (s : Nat) (hs1 : 1 ≤ s) (recs : List (List Byte))
    (hb : BucketOf s [] recs) : recs = [] := by
  obtain ⟨hbin, hlen, _⟩ := hb
  have h := length_flatten_uniform recs s hlen
  rw [← hbin] at h
  simp only [List.length_nil] at h
  rcases Nat.mul_eq_zero.mp h.symm with h | h
  · exact List.length_eq_zero.mp h
  · omega

/-- On a well-formed state `Contains` decides membership of the query's tail
among the records of the bucket its first two bytes select. -/
theorem contains_wf (s : Nat) (hs : Hashset) (hwf : WFat s hs) (c0 c1 : Byte) (tl : List Byte)
    (recs : List (List Byte)) (hb : BucketOf s (hs.things (c0.val * 256 + c1.val)) recs) :
    hs.Contains (c0 :: c1 :: tl) = .ok (decide (tl ∈ recs)) := by
  obtain ⟨hs1, hsz, _⟩ := hwf
  rcases hsz with ⟨_, hempty⟩ | ⟨hsize, _⟩
  · rw [contains_empty hs c0 c1 tl (hempty _)]
    rw [hempty] at hb
    rw [bucketOf_empty s hs1 recs hb]
    simp
  · exact contains_bucket hs s hs1 (by omega) c0 c1 tl recs hb

theorem len_fold (hs : Hashset) (d : Int) (hd : hs.size - 2 = d) (hd0 : d ≠ 0) (k : Nat) :
    (List.range k).foldlM hs.lenStep 0
      = .ok (∑ m ∈ Finset.range k, Int.tdiv ((hs.things m).length : Int) d) := by
  induction k with
  | zero => rfl
  | succ k ih =>
    rw [List.range_succ, List.foldlM_append, ih, Finset.sum_range_succ]
    simp only [Except.bind, List.foldlM, Hashset.lenStep, goDiv, hd, if_neg hd0]
    rfl

/-- `Len` on a well-formed state returns the number of records. -/
theorem len_wf (s : Nat) (hs : Hashset) (hwf : WFat s hs) :
    hs.Len = .ok (recordCount s hs.things) := by
  obtain ⟨hs1, hsz, _⟩ := hwf
  unfold Hashset.Len recordCount
  rcases hsz with ⟨h0, hempty⟩ | ⟨hsize, _⟩
  · rw [len_fold hs (-2) (by omega) (by omega)]
    simp [hempty]
  · rw [len_fold hs s (by omega) (by omega)]

theorem recordCount_insert (s : Nat) (hs1 : 1 ≤ s) (things : Nat → List Byte) (n : Nat)
    (hn : n < 65536) (k : Nat) (hk : (things n).length = k * s) (X : List Byte)
    (hX : X.length = (k + 1) * s) :
    recordCount s (setBucket things n X) = recordCount s things + 1 := by
  unfold recordCount
  have hs0 : (s : Int) ≠ 0 := by omega
  have h : ∀ m ∈ Finset.range 65536,
      Int.tdiv ((setBucket things n X m).length : Int) (s : Int)
        = Int.tdiv ((things m).length : Int) (s : Int) + (if m = n then 1 else 0) := by
    intro m _
    by_cases hm : m = n
    · subst hm
      rw [setBucket_same, hX, hk, if_pos rfl]
      push_cast
      rw [Int.mul_tdiv_cancel _ hs0, Int.mul_tdiv_cancel _ hs0]
    · rw [setBucket_other _ _ _ _ hm, if_neg hm, add_zero]
  rw [Finset.sum_congr rfl h, Finset.sum_add_distrib, Finset.sum_ite_eq']
  simp [hn]

theorem uint16_lt (c0 c1 : Byte) : c0.val * 256 + c1.val < 65536 := by
  have h0 := c0.isLt
  have h1 := c1.isLt
  omega

theorem uint16_inj (b0 b1 c0 c1 : Byte) (h : c0.val * 256 + c1.val = b0.val * 256 + b1.val) :
    c0 = b0 ∧ c1 = b1 := by
  have h0 := c0.isLt
  have h1 := c1.isLt
  have h2 := b0.isLt
  have h3 := b1.isLt
  constructor <;> apply Fin.ext <;> omega

theorem add_short (hs : Hashset) (v : List Byte) (h : v.length < 2) :
    hs.Add v = ⟨hs, some .indexOutOfRange⟩ := by
  unfold Hashset.Add
  rw [contains_short hs v h]

theorem add_present (hs : Hashset) (v : List Byte) (h : hs.Contains v = .ok true) :
    hs.Add v = ⟨hs, none⟩ := by
  unfold Hashset.Add
  rw [h]

theorem add_mismatch (hs : Hashset) (v : List Byte) (h : hs.Contains v = .ok false)
    (h0 : hs.size ≠ 0) (hne : hs.size ≠ (v.length : Int)) :
    hs.Add v = ⟨hs, some .inconsistentSize⟩ := by
  unfold Hashset.Add
  rw [h]
  simp only
  rw [if_neg h0, if_pos hne]

/-- The first `Add` of a two-byte value divides by the payload width `0`
inside `sort.Sort`. -/
theorem add_fresh_two (hs : Hashset) (b0 b1 : Byte) (h0 : hs.size = 0)
    (hempty : ∀ n, hs.things n = []) :
    (hs.Add [b0, b1]).fault = some .divideByZero := by
  unfold Hashset.Add
  have hsl : slice [b0, b1] 2 2 = .ok [] := by simp [slice]
  rw [contains_empty hs b0 b1 [] (hempty _)]
  simp [h0, Hashset.appendAndSort, Uint16, hsl, setBucket_same, hempty, sortSort,
    hashSorter.Len, goDiv]

/-- Inserting a new value into the bucket its prefix selects keeps the
representation, now of the values extended by the new one. -/
theorem rep_insert (s : Nat) (hs : Hashset) (vs : List (List Byte)) (b0 b1 : Byte)
    (tl buf1 : List Byte) (recs : List (List Byte))
    (hs1 : 1 ≤ s) (htl : tl.length = s) (hbuf : buf1.length = s + 2)
    (hvs : ∀ v ∈ vs, v.length = s + 2)
    (hb : BucketOf s (hs.things (b0.val * 256 + b1.val)) recs)
    (hmem : ∀ (c0 c1 : Byte) (t : List Byte), c0.val * 256 + c1.val = b0.val * 256 + b1.val →
      (t ∈ recs ↔ (c0 :: c1 :: t) ∈ vs))
    (hall : ∀ n, ∃ r, BucketOf s (hs.things n) r ∧
      ∀ (c0 c1 : Byte) (t : List Byte), c0.val * 256 + c1.val = n →
        (t ∈ r ↔ (c0 :: c1 :: t) ∈ vs))
    (hcount : recordCount s hs.things = (vs.toFinset.card : Int))
    (hnot : tl ∉ recs) :
    Rep s { things := setBucket hs.things (b0.val * 256 + b1.val)
              (recs.orderedInsert (· ≤ ·) tl).flatten,
            sortbuf := buf1, size := (s : Int) + 2 } (vs ++ [b0 :: b1 :: tl]) := by
  have hnew : BucketOf s (recs.orderedInsert (· ≤ ·) tl).flatten
      (recs.orderedInsert (· ≤ ·) tl) := by
    obtain ⟨_, _, _, h⟩ := sort_append s hs1 _ recs hb tl (List.replicate s 0) htl hnot (by simp)
    exact h
  have hvnot : (b0 :: b1 :: tl) ∉ vs := fun h => hnot ((hmem b0 b1 tl rfl).mpr h)
  have hbuckets : ∀ n, ∃ r, BucketOf s
      (setBucket hs.things (b0.val * 256 + b1.val) (recs.orderedInsert (· ≤ ·) tl).flatten n) r ∧
      ∀ (c0 c1 : Byte) (t : List Byte), c0.val * 256 + c1.val = n →
        (t ∈ r ↔ (c0 :: c1 :: t) ∈ vs ++ [b0 :: b1 :: tl]) := by
    intro n
    by_cases hn : n = b0.val * 256 + b1.val
    · subst hn
      refine ⟨recs.orderedInsert (· ≤ ·) tl, by rw [setBucket_same]; exact hnew, ?_⟩
      intro c0 c1 t hc
      obtain ⟨e0, e1⟩ := uint16_inj b0 b1 c0 c1 hc
      subst e0 e1
      rw [List.mem_orderedInsert, List.mem_append, List.mem_singleton, hmem c0 c1 t rfl]
      constructor
      · rintro (h | h)
        · right; rw [h]
        · left; exact h
      · rintro (h | h)
        · right; exact h
        · left; simpa using h
    · obtain ⟨r, hr, hm⟩ := hall n
      refine ⟨r, by rw [setBucket_other _ _ _ _ hn]; exact hr, ?_⟩
      intro c0 c1 t hc
      rw [hm c0 c1 t hc, List.mem_append, List.mem_singleton]
      constructor
      · intro h; left; exact h
      · rintro (h | h)
        · exact h
        · exfalso
          apply hn
          rw [← hc]
          simp only [List.cons.injEq] at h
          rw [h.1, h.2.1]
  refine ⟨⟨hs1, Or.inr ⟨rfl, hbuf⟩, fun n => ?_⟩, ?_, ?_, hbuckets, ?_⟩
  · obtain ⟨r, hr, _⟩ := hbuckets n
    exact ⟨r, hr⟩
  · intro v hv
    rw [List.mem_append, List.mem_singleton] at hv
    rcases hv with h | h
    · exact hvs v h
    · rw [h]; simp [htl]
  · intro h
    simp only at h
    omega
  · simp only
    have hk : (hs.things (b0.val * 256 + b1.val)).length = recs.length * s := by
      rw [hb.1]; exact length_flatten_uniform recs s hb.2.1
    have hX : (recs.orderedInsert (· ≤ ·) tl).flatten.length = (recs.length + 1) * s := by
      rw [length_flatten_uniform _ s hnew.2.1, List.orderedInsert_length]
    rw [recordCount_insert s hs1 hs.things _ (uint16_lt b0 b1) recs.length hk _ hX, hcount]
    have e : (vs ++ [b0 :: b1 :: tl]).toFinset = insert (b0 :: b1 :: tl) vs.toFinset := by
      ext w
      simp only [List.mem_toFinset, List.mem_append, List.mem_singleton, Finset.mem_insert]
      exact or_comm
    rw [e, Finset.card_insert_of_not_mem (by rw [List.mem_toFinset]; exact hvnot)]
    push_cast
    rfl

theorem rep_present (s : Nat) (hs : Hashset) (vs : List (List Byte)) (v : List Byte)
    (hrep : Rep s hs vs) (hv : v ∈ vs) : Rep s hs (vs ++ [v]) := by
  obtain ⟨hwf, hvs, h0, hall, hcount⟩ := hrep
  refine ⟨hwf, ?_, ?_, ?_, ?_⟩
  · intro w hw
    rw [List.mem_append, List.mem_singleton] at hw
    rcases hw with h | h
    · exact hvs w h
    · rw [h]; exact hvs v hv
  · intro h
    rw [h0 h] at hv
    simp at hv
  · intro n
    obtain ⟨r, hr, hm⟩ := hall n
    refine ⟨r, hr, ?_⟩
    intro c0 c1 t hc
    rw [hm c0 c1 t hc, List.mem_append, List.mem_singleton]
    constructor
    · intro h; left; exact h
    · rintro (h | h)
      · exact h
      · rw [h]; exact hv
  · have e : (vs ++ [v]).toFinset = vs.toFinset := by
      ext w
      simp only [List.mem_toFinset, List.mem_append, List.mem_singleton]
      constructor
      · rintro (h | h)
        · exact h
        · rw [h]; exact hv
      · intro h; left; exact h
    rw [e]
    exact hcount

theorem recordCount_empty (s : Nat) (things : Nat → List Byte) (h : ∀ n, things n = []) :
    recordCount s things = 0 := by
  unfold recordCount
  simp [h]

theorem rep_fresh (s : Nat) (hs1 : 1 ≤ s) : Rep s Hashset.fresh [] := by
  refine ⟨⟨hs1, Or.inl ⟨rfl, fun _ => rfl⟩, fun _ => ⟨[], bucketOf_nil s⟩⟩, by simp,
    fun _ => rfl, fun _ => ⟨[], bucketOf_nil s, by simp⟩, ?_⟩
  rw [recordCount_empty s Hashset.fresh.things (fun _ => rfl)]
  simp

/-- An untouched state is well-formed at every payload width. -/
theorem rep_rescale (s : Nat) (hs : Hashset) (vs : List (List Byte)) (hrep : Rep s hs vs)
    (h0 : hs.size = 0) (t : Nat) (ht : 1 ≤ t) :
    vs = [] ∧ (∀ n, hs.things n = []) ∧ Rep t hs [] := by
  obtain ⟨⟨hs1, hsz, _⟩, _, hnil, _, _⟩ := hrep
  have hempty : ∀ n, hs.things n = [] := by
    rcases hsz with ⟨_, h⟩ | ⟨h, _⟩
    · exact h
    · omega
  refine ⟨hnil h0, hempty, ⟨ht, Or.inl ⟨h0, hempty⟩, fun n => ⟨[], ?_⟩⟩, by simp,
    fun _ => rfl, fun n => ⟨[], ?_, by simp⟩, ?_⟩
  · rw [hempty]; exact bucketOf_nil t
  · rw [hempty]; exact bucketOf_nil t
  · rw [recordCount_empty t _ hempty]
    simp

theorem rep_contains (s : Nat) (hs : Hashset) (vs : List (List Byte)) (hrep : Rep s hs vs)
    (w : List Byte) (hw : 2 ≤ w.length) : hs.Contains w = .ok (decide (w ∈ vs)) := by
  obtain ⟨hwf, _, _, hall, _⟩ := hrep
  match w, hw with
  | c0 :: c1 :: tl, _ =>
    obtain ⟨r, hr, hm⟩ := hall (c0.val * 256 + c1.val)
    rw [contains_wf s hs hwf c0 c1 tl r hr, decide_eq_decide.mpr (hm c0 c1 tl rfl)]

theorem rep_len (s : Nat) (hs : Hashset) (vs : List (List Byte)) (hrep : Rep s hs vs) :
    hs.Len = .ok (vs.toFinset.card : Int) := by
  rw [len_wf s hs hrep.1, hrep.2.2.2.2]

/-- One successful `Add` extends the represented values by the added one. -/
theorem rep_add (s : Nat) (hs : Hashset) (vs : List (List Byte)) (v : List Byte)
    (hrep : Rep s hs vs) (hok : (hs.Add v).fault = none) :
    ∃ t, Rep t (hs.Add v).state (vs ++ [v]) ∧ v.length = t + 2
      ∧ (hs.Add v).state.size = (v.length : Int) := by
  by_cases hshort : v.length < 2
  · rw [add_short hs v hshort] at hok
    simp at hok
  · match v, hshort with
    | b0 :: b1 :: tl, _ =>
      by_cases h0 : hs.size = 0
      · by_cases htl : tl = []
        · subst htl
          obtain ⟨_, hempty, _⟩ := rep_rescale s hs vs hrep h0 1 (le_refl _)
          rw [add_fresh_two hs b0 b1 h0 hempty] at hok
          simp at hok
        · have hpos : 1 ≤ tl.length := by
            cases tl with
            | nil => exact absurd rfl htl
            | cons _ _ => simp
          obtain ⟨hvs, hempty, hrep1⟩ := rep_rescale s hs vs hrep h0 tl.length hpos
          subst hvs
          have hb : BucketOf tl.length (hs.things (b0.val * 256 + b1.val)) [] := by
            rw [hempty]; exact bucketOf_nil _
          obtain ⟨buf1, he, hbl⟩ := add_insert hs b0 b1 tl tl.length hpos rfl
            (contains_empty hs b0 b1 tl (hempty _)) (Or.inl h0) [] hb (by simp)
          rw [he]
          refine ⟨tl.length, ?_, by simp, by simp only [List.length_cons]; push_cast; ring⟩
          exact rep_insert tl.length hs [] b0 b1 tl buf1 [] hpos rfl hbl (by simp) hb
            (by simp) hrep1.2.2.2.1 hrep1.2.2.2.2 (by simp)
      · obtain ⟨hwf, hvs, hnil, hall, hcount⟩ := hrep
        have hsize : hs.size = (s : Int) + 2 ∧ hs.sortbuf.length = s + 2 := by
          rcases hwf.2.1 with ⟨h, _⟩ | h
          · exact absurd h h0
          · exact h
        obtain ⟨r, hr, hm⟩ := hall (b0.val * 256 + b1.val)
        have hc := contains_wf s hs hwf b0 b1 tl r hr
        by_cases hin : tl ∈ r
        · rw [decide_eq_true hin] at hc
          rw [add_present hs _ hc]
          have hv : (b0 :: b1 :: tl) ∈ vs := (hm b0 b1 tl rfl).mp hin
          have hlen := hvs _ hv
          refine ⟨s, rep_present s hs vs _ ⟨hwf, hvs, hnil, hall, hcount⟩ hv, hlen, ?_⟩
          simp only
          rw [hsize.1, hlen]
          push_cast
          rfl
        · rw [decide_eq_false hin] at hc
          by_cases htl : tl.length = s
          · obtain ⟨buf1, he, hbl⟩ := add_insert hs b0 b1 tl s hwf.1 htl hc (Or.inr hsize)
              r hr hin
            rw [he]
            refine ⟨s, ?_, by simp [htl], by simp only [List.length_cons, htl]; push_cast; ring⟩
            exact rep_insert s hs vs b0 b1 tl buf1 r hwf.1 htl hbl hvs hr
              (fun c0 c1 t hc => by
                obtain ⟨e0, e1⟩ := uint16_inj b0 b1 c0 c1 hc
                subst e0 e1
                exact hm c0 c1 t rfl)
              hall hcount hin
          · rw [add_mismatch hs _ hc h0 (by
              rw [hsize.1]; simp only [List.length_cons]; push_cast; omega)] at hok
            simp at hok

theorem addAll_cons_ok (hs : Hashset) (v : List Byte) (vs : List (List Byte))
    (h : (hs.Add v).fault = none) : hs.addAll (v :: vs) = (hs.Add v).state.addAll vs := by
  rw [Hashset.addAll]
  cases hr : hs.Add v with
  | mk st f =>
    rw [hr] at h
    simp only at h
    subst h
    rfl

theorem addAll_cons_fault (hs : Hashset) (v : List Byte) (vs : List (List Byte)) (e : Fault)
    (h : (hs.Add v).fault = some e) : (hs.addAll (v :: vs)).fault = some e := by
  rw [Hashset.addAll]
  cases hr : hs.Add v with
  | mk st f =>
    rw [hr] at h
    simp only at h
    subst h
    rfl

/-- A sequence of `Add` calls that all return extends the represented values
by the whole sequence. -/
theorem rep_addAll (vs : List (List Byte)) :
    ∀ (s : Nat) (hs : Hashset) (pre : List (List Byte)), Rep s hs pre →
      (hs.addAll vs).fault = none → ∃ t, Rep t (hs.addAll vs).state (pre ++ vs) := by
  induction vs with
  | nil =>
    intro s hs pre hrep _
    exact ⟨s, by simpa [Hashset.addAll] using hrep⟩
  | cons v vs ih =>
    intro s hs pre hrep hok
    cases hf : (hs.Add v).fault with
    | some e =>
      rw [addAll_cons_fault hs v vs e hf] at hok
      simp at hok
    | none =>
      rw [addAll_cons_ok hs v vs hf] at hok ⊢
      obtain ⟨t, hrep1, _⟩ := rep_add s hs pre v hrep hf
      obtain ⟨u, hrep2⟩ := ih t _ _ hrep1 hok
      exact ⟨u, by simpa using hrep2⟩

theorem reachable_rep (hs : Hashset) (h : Reachable hs) : ∃ s vs, Rep s hs vs := by
  induction h with
  | fresh => exact ⟨1, [], rep_fresh 1 (le_refl _)⟩
  | add hs v _ hok ih =>
    obtain ⟨s, vs, hrep⟩ := ih
    obtain ⟨t, hrep1, _⟩ := rep_add s hs vs v hrep hok
    exact ⟨t, vs ++ [v], hrep1⟩

theorem drop_take_record (recs : List (List Byte)) (s : Nat) (hr : ∀ r ∈ recs, r.length = s)
    (t : Nat) (ht : t < recs.length) :
    (recs.flatten.drop (t * s)).take s = recs[t] := by
  have hsplit : recs.flatten
      = (recs.take t).flatten ++ (recs[t] ++ (recs.drop (t + 1)).flatten) := by
    calc recs.flatten = (recs.take t ++ recs[t] :: recs.drop (t + 1)).flatten := by
          rw [← List.drop_eq_getElem_cons ht, List.take_append_drop]
      _ = _ := by rw [List.flatten_append, List.flatten_cons]
  have hlen : (recs.take t).flatten.length = t * s := by
    rw [length_flatten_uniform _ s (fun r h => hr r (List.mem_of_mem_take h))]
    rw [List.length_take, Nat.min_eq_left (le_of_lt ht)]
  rw [hsplit, List.drop_left' hlen, List.take_left' (hr _ (List.getElem_mem ht))]

/-- Reading a bucket made of whole `s`-byte records back as payloads returns
those records. -/
theorem payloads_flatten (recs : List (List Byte)) (s : Nat) (hs1 : 1 ≤ s)
    (hr : ∀ r ∈ recs, r.length = s) : payloads recs.flatten (s : Int) = recs := by
  have hcnt : (Int.tdiv (recs.flatten.length : Int) (s : Int)).toNat = recs.length := by
    rw [length_flatten_uniform recs s hr]
    push_cast
    rw [Int.mul_tdiv_cancel _ (by omega), Int.toNat_ofNat]
  unfold payloads
  rw [hcnt, Int.toNat_ofNat]
  apply List.ext_getElem
  · simp
  · intro i h1 h2
    rw [List.getElem_map, List.getElem_range, drop_take_record recs s hr i h2]

theorem payloads_nil (d : Int) : payloads [] d = [] := by
  simp [payloads]

theorem slice_length (s : List Byte) (lo hi : Int) (r : List Byte)
    (h : slice s lo hi = .ok r) : (r.length : Int) = hi - lo := by
  unfold slice at h
  split at h
  · rename_i hc
    injection h with h
    subst h
    rw [List.length_take, List.length_drop]
    omega
  · exact absurd h (by simp)

/-- In every state, `Contains` can answer `true` only for a query of the
container's element length. -/
theorem contains_true_length (hs : Hashset) (v : List Byte) (h : hs.Contains v = .ok true) :
    (v.length : Int) = hs.size := by
  match v with
  | [] => simp [Hashset.Contains, Uint16] at h
  | [_] => simp [Hashset.Contains, Uint16] at h
  | b0 :: b1 :: tl =>
    unfold Hashset.Contains at h
    simp only [Uint16, slice_tail] at h
    split at h
    · simp at h
    · split at h
      · simp at h
      · split at h
        · simp at h
        · split at h
          · split at h
            · simp at h
            · rename_i r hr
              have hlen := slice_length _ _ _ _ hr
              simp only [bytesEqual, Except.ok.injEq, decide_eq_true_eq] at h
              rw [← h] at hlen
              simp only [List.length_cons]
              push_cast
              omega
          · simp at h

/-! ## The claims -/

/-- C1: for every sequence `vs` of values of one common length `L` that are all
added successfully to a fresh Hashset, and every value `v` of length `L`,
`Contains(v)` returns `true` if and only if `v` is one of the added values (no
false positives, no false negatives); and when `L ≥ 2` the answer is returned
without any fault, `false` for a value that was not added. -/
theorem contains_iff_added (vs : List (List Byte)) (L : Nat) (v : List Byte)
    (_hvs : ∀ x ∈ vs, x.length = L)
    (hok : (Hashset.fresh.addAll vs).fault = none) (hv : v.length = L) :
    ((Hashset.fresh.addAll vs).state.Contains v = .ok true ↔ v ∈ vs)
      ∧ (2 ≤ L → (Hashset.fresh.addAll vs).state.Contains v = .ok (decide (v ∈ vs))) := by
  obtain ⟨t, hrep⟩ := rep_addAll vs 1 Hashset.fresh [] (rep_fresh 1 (le_refl _)) hok
  rw [List.nil_append] at hrep
  have hlong : 2 ≤ v.length →
      (Hashset.fresh.addAll vs).state.Contains v = .ok (decide (v ∈ vs)) :=
    fun h2 => rep_contains t _ vs hrep v h2
  refine ⟨?_, fun hL => hlong (by omega)⟩
  by_cases h2 : 2 ≤ v.length
  · rw [hlong h2]
    simp
  · rw [contains_short _ v (by omega)]
    constructor
    · intro h
      exact absurd h (by simp)
    · intro hmem
      have := hrep.2.1 v hmem
      omega

/-- Instance of C1: two four-byte values sharing the bucket 0x0001, queried for
the second, which the sort moved in front of the first. -/
theorem contains_iff_added_witness :
    ((Hashset.fresh.addAll [[0x00, 0x01, 0xAA, 0xBB], [0x00, 0x01, 0x11, 0x22]]).state.Contains
          [0x00, 0x01, 0x11, 0x22] = .ok true
        ↔ ([0x00, 0x01, 0x11, 0x22] : List Byte) ∈
            ([[0x00, 0x01, 0xAA, 0xBB], [0x00, 0x01, 0x11, 0x22]] : List (List Byte)))
      ∧ (Hashset.fresh.addAll [[0x00, 0x01, 0xAA, 0xBB], [0x00, 0x01, 0x11, 0x22]]).state.Contains
          [0x00, 0x01, 0x11, 0x22]
        = .ok (decide (([0x00, 0x01, 0x11, 0x22] : List Byte) ∈
            ([[0x00, 0x01, 0xAA, 0xBB], [0x00, 0x01, 0x11, 0x22]] : List (List Byte)))) :=
  ⟨(contains_iff_added [[0x00, 0x01, 0xAA, 0xBB], [0x00, 0x01, 0x11, 0x22]] 4
      [0x00, 0x01, 0x11, 0x22] (by decide) (by decide) (by decide)).1,
   (contains_iff_added [[0x00, 0x01, 0xAA, 0xBB], [0x00, 0x01, 0x11, 0x22]] 4
      [0x00, 0x01, 0x11, 0x22] (by decide) (by decide) (by decide)).2 (by decide)⟩

/-- C2: after any sequence `vs` of additions to a fresh Hashset that all return
normally, `Len()` returns the number of distinct values of `vs`; and adding any
value of `vs` once more returns normally and leaves `Len()` unchanged. -/
theorem len_counts_distinct (vs : List (List Byte))
    (hok : (Hashset.fresh.addAll vs).fault = none) :
    (Hashset.fresh.addAll vs).state.Len = .ok (vs.toFinset.card : Int)
      ∧ ∀ v ∈ vs, ((Hashset.fresh.addAll vs).state.Add v).fault = none
          ∧ ((Hashset.fresh.addAll vs).state.Add v).state.Len
              = (Hashset.fresh.addAll vs).state.Len := by
  obtain ⟨t, hrep⟩ := rep_addAll vs 1 Hashset.fresh [] (rep_fresh 1 (le_refl _)) hok
  rw [List.nil_append] at hrep
  refine ⟨rep_len t _ vs hrep, ?_⟩
  intro v hv
  have hlen : v.length = t + 2 := hrep.2.1 v hv
  have hc := rep_contains t _ vs hrep v (by omega)
  rw [decide_eq_true hv] at hc
  rw [add_present _ v hc]
  exact ⟨rfl, rfl⟩

/-- Instance of C2: three additions, one of them a duplicate. -/
theorem len_counts_distinct_witness :
    (Hashset.fresh.addAll [[0x00, 0x01, 0xAA, 0xBB], [0x00, 0x01, 0xAA, 0xBB],
        [0x00, 0x02, 0x00, 0x00]]).fault = none
      ∧ (Hashset.fresh.addAll [[0x00, 0x01, 0xAA, 0xBB], [0x00, 0x01, 0xAA, 0xBB],
          [0x00, 0x02, 0x00, 0x00]]).state.Len
        = .ok ((([[0x00, 0x01, 0xAA, 0xBB], [0x00, 0x01, 0xAA, 0xBB],
            [0x00, 0x02, 0x00, 0x00]] : List (List Byte)).toFinset.card : Nat) : Int) :=
  ⟨by decide, (len_counts_distinct [[0x00, 0x01, 0xAA, 0xBB], [0x00, 0x01, 0xAA, 0xBB],
    [0x00, 0x02, 0x00, 0x00]] (by decide)).1⟩

/-- C3: in every state reachable from the fresh state through `Add` calls that
return normally, every bucket, read as consecutive `(size - 2)`-byte payloads, is
strictly ascending under `bytes.Compare`, and so holds no payload twice. -/
theorem buckets_strictly_ascending (hs : Hashset) (h : Reachable hs) (n : Nat) :
    List.Pairwise (fun a b => bytesCompare a b < 0) (payloads (hs.things n) (hs.size - 2))
      ∧ (payloads (hs.things n) (hs.size - 2)).Nodup := by
  obtain ⟨s, vs, ⟨hs1, hsz, hall⟩, _⟩ := reachable_rep hs h
  rcases hsz with ⟨_, hempty⟩ | ⟨hsize, _⟩
  · rw [hempty, payloads_nil]
    exact ⟨List.Pairwise.nil, List.nodup_nil⟩
  · obtain ⟨recs, hbin, hlen, hsorted⟩ := hall n
    have e : hs.size - 2 = (s : Int) := by omega
    rw [e, hbin, payloads_flatten recs s hs1 hlen]
    refine ⟨?_, hsorted.nodup⟩
    exact List.Pairwise.imp (fun hab => (bytesCompare_lt_iff _ _).mpr hab) hsorted

/-- Instance of C3: bucket 0x0001 after 0xAABB and then 0x1122 were added; it
holds the two payloads 0x1122, 0xAABB, in that order. -/
theorem buckets_strictly_ascending_witness :
    payloads (((Hashset.fresh.Add [0x00, 0x01, 0xAA, 0xBB]).state.Add
          [0x00, 0x01, 0x11, 0x22]).state.things 1)
        (((Hashset.fresh.Add [0x00, 0x01, 0xAA, 0xBB]).state.Add
          [0x00, 0x01, 0x11, 0x22]).state.size - 2)
        = [[0x11, 0x22], [0xAA, 0xBB]]
      ∧ List.Pairwise (fun a b => bytesCompare a b < 0)
          (payloads (((Hashset.fresh.Add [0x00, 0x01, 0xAA, 0xBB]).state.Add
              [0x00, 0x01, 0x11, 0x22]).state.things 1)
            (((Hashset.fresh.Add [0x00, 0x01, 0xAA, 0xBB]).state.Add
              [0x00, 0x01, 0x11, 0x22]).state.size - 2))
      ∧ (payloads (((Hashset.fresh.Add [0x00, 0x01, 0xAA, 0xBB]).state.Add
              [0x00, 0x01, 0x11, 0x22]).state.things 1)
            (((Hashset.fresh.Add [0x00, 0x01, 0xAA, 0xBB]).state.Add
              [0x00, 0x01, 0x11, 0x22]).state.size - 2)).Nodup :=
  ⟨by decide,
   buckets_strictly_ascending _
    (Reachable.add _ [0x00, 0x01, 0x11, 0x22]
      (Reachable.add Hashset.fresh [0x00, 0x01, 0xAA, 0xBB] Reachable.fresh (by decide))
      (by decide)) 1⟩

/-- C4 (as stated, refuted): on a container whose first `Add` fixed the element
length 4, `Add` of the one-byte value `[0]` does not abort with the
length-mismatch condition; it aborts with an index-out-of-range fault. -/
theorem add_short_value_is_not_length_mismatch :
    (Hashset.fresh.Add [0x00, 0x01, 0xAA, 0xBB]).fault = none
      ∧ (Hashset.fresh.Add [0x00, 0x01, 0xAA, 0xBB]).state.size = 4
      ∧ (([0x00] : List Byte).length : Int) ≠ 4
      ∧ ((Hashset.fresh.Add [0x00, 0x01, 0xAA, 0xBB]).state.Add [0x00]).fault
          = some .indexOutOfRange
      ∧ ((Hashset.fresh.Add [0x00, 0x01, 0xAA, 0xBB]).state.Add [0x00]).fault
          ≠ some .inconsistentSize := by
  decide

/-- C4 (amended): in every reachable state with an established element length
`L`, `Add(v)` with `len v ≠ L` never returns normally: it aborts with the
length-mismatch condition when `len v ≥ 2`, and with an index-out-of-range fault
when `len v < 2`. -/
theorem add_wrong_length_aborts (hs : Hashset) (h : Reachable hs) (v : List Byte)
    (h0 : hs.size ≠ 0) (hne : (v.length : Int) ≠ hs.size) :
    (hs.Add v).fault ≠ none
      ∧ (2 ≤ v.length → (hs.Add v).fault = some .inconsistentSize)
      ∧ (v.length < 2 → (hs.Add v).fault = some .indexOutOfRange) := by
  obtain ⟨s, vs, hrep⟩ := reachable_rep hs h
  have hlong : 2 ≤ v.length → (hs.Add v).fault = some .inconsistentSize := by
    intro h2
    have hc := rep_contains s hs vs hrep v h2
    have hnot : v ∉ vs := by
      intro hv
      have hlen := hrep.2.1 v hv
      rcases hrep.1.2.1 with ⟨hz, _⟩ | ⟨hsize, _⟩
      · exact h0 hz
      · apply hne; rw [hsize, hlen]; push_cast; rfl
    rw [decide_eq_false hnot] at hc
    rw [add_mismatch hs v hc h0 (fun e => hne e.symm)]
  have hshort : v.length < 2 → (hs.Add v).fault = some .indexOutOfRange := by
    intro h2
    rw [add_short hs v h2]
  refine ⟨?_, hlong, hshort⟩
  by_cases h2 : 2 ≤ v.length
  · rw [hlong h2]; simp
  · rw [hshort (by omega)]; simp

/-- Instance of C4 (amended): a three-byte value offered to a container of four-byte values. -/
theorem add_wrong_length_aborts_witness :
    (Hashset.fresh.Add [0x00, 0x01, 0xAA, 0xBB]).state.size ≠ 0
      ∧ (([0x00, 0x01, 0xAA] : List Byte).length : Int)
          ≠ (Hashset.fresh.Add [0x00, 0x01, 0xAA, 0xBB]).state.size
      ∧ ((Hashset.fresh.Add [0x00, 0x01, 0xAA, 0xBB]).state.Add [0x00, 0x01, 0xAA]).fault ≠ none :=
  ⟨by decide, by decide,
    (add_wrong_length_aborts (Hashset.fresh.Add [0x00, 0x01, 0xAA, 0xBB]).state
      (Reachable.add Hashset.fresh [0x00, 0x01, 0xAA, 0xBB] Reachable.fresh (by decide))
      [0x00, 0x01, 0xAA] (by decide) (by decide)).1⟩

/-- C5: in every state with an established element length `L` (reachable or
not), `Add(v)` with `len v ≠ L` aborts and leaves the state exactly as it was:
all buckets and `L` are unchanged, hence so are all later `Contains` and `Len`
results. -/
theorem add_mismatch_leaves_state (hs : Hashset) (v : List Byte)
    (h0 : hs.size ≠ 0) (hne : (v.length : Int) ≠ hs.size) :
    (hs.Add v).fault ≠ none ∧ (hs.Add v).state = hs
      ∧ (hs.Add v).state.Len = hs.Len
      ∧ ∀ w, (hs.Add v).state.Contains w = hs.Contains w := by
  have key : (hs.Add v).fault ≠ none ∧ (hs.Add v).state = hs := by
    cases hc : hs.Contains v with
    | error e =>
      unfold Hashset.Add
      rw [hc]
      exact ⟨by simp, rfl⟩
    | ok b =>
      cases b with
      | true => exact absurd (contains_true_length hs v hc) hne
      | false =>
        rw [add_mismatch hs v hc h0 (fun e => hne e.symm)]
        exact ⟨by simp, rfl⟩
  refine ⟨key.1, key.2, ?_, ?_⟩
  · rw [key.2]
  · intro w; rw [key.2]

/-- Instance of C5: a three-byte value offered to a container of four-byte values. -/
theorem add_mismatch_leaves_state_witness :
    (Hashset.fresh.Add [0x00, 0x01, 0xAA, 0xBB]).state.size ≠ 0
      ∧ ((Hashset.fresh.Add [0x00, 0x01, 0xAA, 0xBB]).state.Add [0x00, 0x01, 0xAA]).state
          = (Hashset.fresh.Add [0x00, 0x01, 0xAA, 0xBB]).state :=
  ⟨by decide,
    (add_mismatch_leaves_state (Hashset.fresh.Add [0x00, 0x01, 0xAA, 0xBB]).state
      [0x00, 0x01, 0xAA] (by decide) (by decide)).2.1⟩

/-- C6 (as stated, refuted): the first `Add` of the two-byte value `[0, 1]`
(length `L = 2`) on a fresh Hashset does not complete; `sort.Sort` calls
`hashSorter.Len`, which divides by the payload width `L - 2 = 0`. -/
theorem first_add_of_two_bytes_divides_by_zero :
    2 ≤ ([0x00, 0x01] : List Byte).length
      ∧ (Hashset.fresh.Add [0x00, 0x01]).fault = some .divideByZero := by
  decide

/-- C6 (amended): for every value `v` of length `L ≥ 3`, `Add(v)` on a fresh
Hashset returns normally and fixes the element length to `L`; afterwards
`Contains(v)` is `true` and `Len()` is `1`. -/
theorem first_add_succeeds (v : List Byte) (hv : 3 ≤ v.length) :
    (Hashset.fresh.Add v).fault = none
      ∧ (Hashset.fresh.Add v).state.size = (v.length : Int)
      ∧ (Hashset.fresh.Add v).state.Contains v = .ok true
      ∧ (Hashset.fresh.Add v).state.Len = .ok 1 := by
  have hok : (Hashset.fresh.Add v).fault = none := by
    match v, hv with
    | b0 :: b1 :: t0 :: tl, _ =>
      obtain ⟨buf1, he, _⟩ := add_insert Hashset.fresh b0 b1 (t0 :: tl) (t0 :: tl).length
        (by simp) rfl (contains_empty _ b0 b1 _ rfl) (Or.inl rfl) [] (bucketOf_nil _) (by simp)
      rw [he]
  obtain ⟨t, hrep, _, hsize⟩ := rep_add 1 Hashset.fresh [] v (rep_fresh 1 (le_refl _)) hok
  rw [List.nil_append] at hrep
  refine ⟨hok, hsize, ?_, ?_⟩
  · rw [rep_contains t _ [v] hrep v (by omega)]
    simp
  · rw [rep_len t _ [v] hrep]
    simp

/-- Instance of C6 (amended): the first addition of a three-byte value. -/
theorem first_add_succeeds_witness :
    3 ≤ ([0x00, 0x01, 0xAA] : List Byte).length
      ∧ (Hashset.fresh.Add [0x00, 0x01, 0xAA]).fault = none
      ∧ (Hashset.fresh.Add [0x00, 0x01, 0xAA]).state.size
          = (([0x00, 0x01, 0xAA] : List Byte).length : Int)
      ∧ (Hashset.fresh.Add [0x00, 0x01, 0xAA]).state.Contains [0x00, 0x01, 0xAA] = .ok true
      ∧ (Hashset.fresh.Add [0x00, 0x01, 0xAA]).state.Len = .ok 1 :=
  ⟨by decide, first_add_succeeds [0x00, 0x01, 0xAA] (by decide)⟩

/-- C7 (as stated, refuted): on a fresh Hashset `Contains` of the empty value and
of a one-byte value does not return `false`; reading the two-byte prefix panics
with an index-out-of-range fault. -/
theorem contains_on_fresh_panics_below_two_bytes :
    Hashset.fresh.size = 0
      ∧ Hashset.fresh.Contains [] = .error .indexOutOfRange
      ∧ Hashset.fresh.Contains [0x07] = .error .indexOutOfRange := by
  decide

/-- C7 (amended): on a fresh Hashset, `Contains(v)` returns `false` without any
fault for every value `v` of at least two bytes. -/
theorem contains_on_fresh_false (v : List Byte) (hv : 2 ≤ v.length) :
    Hashset.fresh.Contains v = .ok false := by
  match v, hv with
  | b0 :: b1 :: tl, _ => exact contains_empty Hashset.fresh b0 b1 tl rfl

/-- Instance of C7 (amended): a two-byte query on the fresh container. -/
theorem contains_on_fresh_false_witness :
    2 ≤ ([0xFF, 0xFF] : List Byte).length
      ∧ Hashset.fresh.Contains [0xFF, 0xFF] = .ok false :=
  ⟨by decide, contains_on_fresh_false [0xFF, 0xFF] (by decide)⟩

/-- C8: on a fresh Hashset (`size = 0`) `Len()` returns `0`; the divisor
`size - 2` is `-2`, so no division by zero occurs. -/
theorem len_on_fresh_zero :
    Hashset.fresh.size - 2 ≠ 0 ∧ Hashset.fresh.Len = .ok 0 := by
  refine ⟨by decide, ?_⟩
  rw [rep_len 1 Hashset.fresh [] (rep_fresh 1 (le_refl _))]
  simp

/-- C9: in every reachable state, when `Add(v)` returns normally, a second
`Add(v)` also returns normally and leaves `Len()` and every `Contains(w)` result
as they were after the first. -/
theorem add_twice_same_queries (hs : Hashset) (h : Reachable hs) (v : List Byte)
    (hok : (hs.Add v).fault = none) :
    ((hs.Add v).state.Add v).fault = none
      ∧ ((hs.Add v).state.Add v).state.Len = (hs.Add v).state.Len
      ∧ ∀ w, ((hs.Add v).state.Add v).state.Contains w = (hs.Add v).state.Contains w := by
  obtain ⟨s, vs, hrep⟩ := reachable_rep hs h
  obtain ⟨t, hrep1, hlen, _⟩ := rep_add s hs vs v hrep hok
  have hc := rep_contains t _ _ hrep1 v (by omega)
  rw [decide_eq_true (by simp)] at hc
  rw [add_present _ v hc]
  exact ⟨rfl, rfl, fun _ => rfl⟩

/-- Instance of C9: a second value of bucket 0x0001 added twice. -/
theorem add_twice_same_queries_witness :
    (((Hashset.fresh.Add [0x00, 0x01, 0xAA, 0xBB]).state.Add [0x00, 0x01, 0x11, 0x22]).state.Add
        [0x00, 0x01, 0x11, 0x22]).fault = none
      ∧ (((Hashset.fresh.Add [0x00, 0x01, 0xAA, 0xBB]).state.Add
            [0x00, 0x01, 0x11, 0x22]).state.Add [0x00, 0x01, 0x11, 0x22]).state.Len
          = ((Hashset.fresh.Add [0x00, 0x01, 0xAA, 0xBB]).state.Add
              [0x00, 0x01, 0x11, 0x22]).state.Len :=
  ⟨(add_twice_same_queries (Hashset.fresh.Add [0x00, 0x01, 0xAA, 0xBB]).state
      (Reachable.add Hashset.fresh [0x00, 0x01, 0xAA, 0xBB] Reachable.fresh (by decide))
      [0x00, 0x01, 0x11, 0x22] (by decide)).1,
   (add_twice_same_queries (Hashset.fresh.Add [0x00, 0x01, 0xAA, 0xBB]).state
      (Reachable.add Hashset.fresh [0x00, 0x01, 0xAA, 0xBB] Reachable.fresh (by decide))
      [0x00, 0x01, 0x11, 0x22] (by decide)).2.1⟩

/-- C10: in every reachable state `Len()` returns a value (no division by
zero), and once an element length `L` is established `Contains(v)` returns a
value (no out-of-range slice or index) for every `v` of length `L`. -/
theorem queries_total (hs : Hashset) (h : Reachable hs) :
    (∃ k, hs.Len = .ok k)
      ∧ ∀ v : List Byte, hs.size ≠ 0 → (v.length : Int) = hs.size →
          ∃ b, hs.Contains v = .ok b := by
  obtain ⟨s, vs, hrep⟩ := reachable_rep hs h
  refine ⟨⟨_, rep_len s hs vs hrep⟩, ?_⟩
  intro v h0 hv
  have h2 : 2 ≤ v.length := by
    rcases hrep.1.2.1 with ⟨hz, _⟩ | ⟨hsize, _⟩
    · exact absurd hz h0
    · omega
  exact ⟨_, rep_contains s hs vs hrep v h2⟩

/-- Instance of C10: both queries after one addition. -/
theorem queries_total_witness :
    (∃ k, (Hashset.fresh.Add [0x00, 0x01, 0xAA, 0xBB]).state.Len = .ok k)
      ∧ ∃ b, (Hashset.fresh.Add [0x00, 0x01, 0xAA, 0xBB]).state.Contains
          [0x00, 0x01, 0xAA, 0xBC] = .ok b :=
  ⟨(queries_total (Hashset.fresh.Add [0x00, 0x01, 0xAA, 0xBB]).state
      (Reachable.add Hashset.fresh [0x00, 0x01, 0xAA, 0xBB] Reachable.fresh (by decide))).1,
   (queries_total (Hashset.fresh.Add [0x00, 0x01, 0xAA, 0xBB]).state
      (Reachable.add Hashset.fresh [0x00, 0x01, 0xAA, 0xBB] Reachable.fresh (by decide))).2
      [0x00, 0x01, 0xAA, 0xBC] (by decide) (by decide)⟩

/-! ## Frame properties of `Add` -/

theorem appendAndSort_things_other (hs : Hashset) (h : List Byte) (m : Nat)
    (hm : Uint16 h ≠ .ok m) : (hs.appendAndSort h).state.things m = hs.things m := by
  unfold Hashset.appendAndSort
  cases hu : Uint16 h with
  | error e => rfl
  | ok n =>
    have hne : m ≠ n := fun e => hm (by rw [hu, e])
    cases hsl : slice h 2 h.length with
    | error e => rfl
    | ok tl =>
      simp only
      rw [setBucket_other _ _ _ _ hne, setBucket_other _ _ _ _ hne]

theorem appendAndSort_size (hs : Hashset) (h : List Byte) :
    (hs.appendAndSort h).state.size = hs.size := by
  unfold Hashset.appendAndSort
  cases hu : Uint16 h with
  | error e => rfl
  | ok n =>
    cases hsl : slice h 2 h.length with
    | error e => rfl
    | ok tl => rfl

/-- In every state and whatever the outcome, `Add` touches no bucket other
than the one selected by the first two bytes of its argument. -/
theorem add_things_other (hs : Hashset) (v : List Byte) (m : Nat)
    (hm : Uint16 v ≠ .ok m) : (hs.Add v).state.things m = hs.things m := by
  unfold Hashset.Add
  cases hc : hs.Contains v with
  | error e => rfl
  | ok b =>
    cases b with
    | true => rfl
    | false =>
      simp only
      by_cases h0 : hs.size = 0
      · rw [if_pos h0, appendAndSort_things_other _ v m hm]
      · rw [if_neg h0]
        by_cases h1 : hs.size ≠ (v.length : Int)
        · rw [if_pos h1]
        · rw [if_neg h1, appendAndSort_things_other _ v m hm]

/-- In every state and whatever the outcome, `Add` leaves an element length
that is already set as it is. -/
theorem add_size_fixed (hs : Hashset) (v : List Byte) (h0 : hs.size ≠ 0) :
    (hs.Add v).state.size = hs.size := by
  unfold Hashset.Add
  cases hc : hs.Contains v with
  | error e => rfl
  | ok b =>
    cases b with
    | true => rfl
    | false =>
      simp only
      rw [if_neg h0]
      by_cases h1 : hs.size ≠ (v.length : Int)
      · rw [if_pos h1]
      · rw [if_neg h1, appendAndSort_size]

/-- In every state, an `Add` that returns normally on a container with an
element length was given a value of that length. -/
theorem add_ok_length (hs : Hashset) (v : List Byte) (h0 : hs.size ≠ 0)
    (hok : (hs.Add v).fault = none) : (v.length : Int) = hs.size := by
  cases hc : hs.Contains v with
  | error e =>
    unfold Hashset.Add at hok
    rw [hc] at hok
    simp at hok
  | ok b =>
    cases b with
    | true => exact contains_true_length hs v hc
    | false =>
      by_contra hne
      rw [add_mismatch hs v hc h0 (fun e => hne e.symm)] at hok
      simp at hok

/-- `Contains` reads only the element length and the bucket its argument selects. -/
theorem contains_congr (hs1 hs2 : Hashset) (w : List Byte) (hsize : hs1.size = hs2.size)
    (hth : ∀ n, Uint16 w = .ok n → hs1.things n = hs2.things n) :
    hs1.Contains w = hs2.Contains w := by
  have hp : ∀ bin sub, hs1.probe bin sub = hs2.probe bin sub := by
    intro bin sub
    funext i
    unfold Hashset.probe
    rw [hsize]
  unfold Hashset.Contains
  cases hu : Uint16 w with
  | error e => rfl
  | ok n =>
    simp only
    rw [hth n hu, hsize]
    simp only [hp]

theorem addAll_cons_fault_state (hs : Hashset) (v : List Byte) (vs : List (List Byte))
    (e : Fault) (h : (hs.Add v).fault = some e) :
    (hs.addAll (v :: vs)).state = (hs.Add v).state := by
  rw [Hashset.addAll]
  cases hr : hs.Add v with
  | mk st f =>
    rw [hr] at h
    simp only at h
    subst h
    rfl

/-- Once set, the element length survives every later sequence of `Add`
calls, and every value such a sequence adds successfully has that length. -/
theorem addAll_size_fixed (vs : List (List Byte)) :
    ∀ hs : Hashset, hs.size ≠ 0 →
      (hs.addAll vs).state.size = hs.size
        ∧ ((hs.addAll vs).fault = none → ∀ v ∈ vs, (v.length : Int) = hs.size) := by
  induction vs with
  | nil =>
    intro hs _
    exact ⟨rfl, fun _ v hv => absurd hv (List.not_mem_nil v)⟩
  | cons v vs ih =>
    intro hs h0
    have hsz := add_size_fixed hs v h0
    cases hf : (hs.Add v).fault with
    | some e =>
      refine ⟨by rw [addAll_cons_fault_state hs v vs e hf, hsz], ?_⟩
      intro hok
      rw [addAll_cons_fault hs v vs e hf] at hok
      simp at hok
    | none =>
      rw [addAll_cons_ok hs v vs hf]
      obtain ⟨h1, h2⟩ := ih (hs.Add v).state (by rw [hsz]; exact h0)
      refine ⟨by rw [h1, hsz], ?_⟩
      intro hok w hw
      rw [List.mem_cons] at hw
      rcases hw with e | hw
      · rw [e]; exact add_ok_length hs v h0 hf
      · rw [← hsz]; exact h2 hok w hw

theorem len_zero_width (hs : Hashset) (h : hs.size = 2) :
    hs.Len = .error .divideByZero := by
  unfold Hashset.Len
  rw [List.range_succ_eq_map, List.foldlM_cons]
  simp only [Hashset.lenStep, goDiv, h]
  rfl

theorem len_nonzero_width (hs : Hashset) (h : hs.size ≠ 2) : ∃ k, hs.Len = .ok k :=
  ⟨_, len_fold hs (hs.size - 2) rfl (by omega) 65536⟩

theorem rep_size_ne_two (s : Nat) (hs : Hashset) (vs : List (List Byte)) (hrep : Rep s hs vs) :
    hs.size ≠ 2 := by
  obtain ⟨⟨hs1, hsz, _⟩, _⟩ := hrep
  rcases hsz with ⟨h, _⟩ | ⟨h, _⟩ <;> omega

/-- Exact result of an `Add` that returns normally for a value not yet stored. -/
theorem add_new_state (s : Nat) (hs : Hashset) (vs : List (List Byte)) (hrep : Rep s hs vs)
    (b0 b1 : Byte) (tl : List Byte) (hc : hs.Contains (b0 :: b1 :: tl) = .ok false)
    (hok : (hs.Add (b0 :: b1 :: tl)).fault = none) :
    ∃ (recs : List (List Byte)) (buf1 : List Byte),
      1 ≤ tl.length ∧ BucketOf tl.length (hs.things (b0.val * 256 + b1.val)) recs ∧ tl ∉ recs
        ∧ hs.Add (b0 :: b1 :: tl)
          = ⟨{ things := setBucket hs.things (b0.val * 256 + b1.val)
                  (recs.orderedInsert (· ≤ ·) tl).flatten,
               sortbuf := buf1, size := (tl.length : Int) + 2 }, none⟩ := by
  by_cases h0 : hs.size = 0
  · by_cases htl : tl = []
    · subst htl
      obtain ⟨_, hempty, _⟩ := rep_rescale s hs vs hrep h0 1 (le_refl _)
      rw [add_fresh_two hs b0 b1 h0 hempty] at hok
      simp at hok
    · have hpos : 1 ≤ tl.length := by
        cases tl with
        | nil => exact absurd rfl htl
        | cons _ _ => simp
      obtain ⟨_, hempty, _⟩ := rep_rescale s hs vs hrep h0 tl.length hpos
      have hb : BucketOf tl.length (hs.things (b0.val * 256 + b1.val)) [] := by
        rw [hempty]; exact bucketOf_nil _
      obtain ⟨buf1, he, _⟩ := add_insert hs b0 b1 tl tl.length hpos rfl hc (Or.inl h0) [] hb
        (by simp)
      exact ⟨[], buf1, hpos, hb, by simp, he⟩
  · obtain ⟨hwf, _, _, hall, _⟩ := hrep
    have hsize : hs.size = (s : Int) + 2 ∧ hs.sortbuf.length = s + 2 := by
      rcases hwf.2.1 with ⟨h, _⟩ | h
      · exact absurd h h0
      · exact h
    obtain ⟨r, hr, _⟩ := hall (b0.val * 256 + b1.val)
    have hin : tl ∉ r := by
      intro hin
      rw [contains_wf s hs hwf b0 b1 tl r hr, decide_eq_true hin] at hc
      simp at hc
    by_cases htl : tl.length = s
    · subst htl
      obtain ⟨buf1, he, _⟩ := add_insert hs b0 b1 tl tl.length hwf.1 rfl hc (Or.inr hsize)
        r hr hin
      exact ⟨r, buf1, hwf.1, hr, hin, he⟩
    · rw [add_mismatch hs _ hc h0 (by
        rw [hsize.1]; simp only [List.length_cons]; push_cast; omega)] at hok
      simp at hok

theorem bucketOf_orderedInsert (s : Nat) (hs1 : 1 ≤ s) (bin : List Byte)
    (recs : List (List Byte)) (hb : BucketOf s bin recs) (tl : List Byte) (htl : tl.length = s)
    (hnot : tl ∉ recs) :
    BucketOf s (recs.orderedInsert (· ≤ ·) tl).flatten (recs.orderedInsert (· ≤ ·) tl) := by
  obtain ⟨_, _, _, h⟩ := sort_append s hs1 bin recs hb tl (List.replicate s 0) htl hnot (by simp)
  exact h

/-- A value of the container's element length can always be added. -/
theorem add_ok_of_length (s : Nat) (hs : Hashset) (vs : List (List Byte)) (hrep : Rep s hs vs)
    (hsize : hs.size = (s : Int) + 2) (v : List Byte) (hv : v.length = s + 2) :
    (hs.Add v).fault = none := by
  match v, hv with
  | b0 :: b1 :: tl, hv =>
    obtain ⟨hwf, _, _, hall, _⟩ := hrep
    have hbuf : hs.sortbuf.length = s + 2 := by
      rcases hwf.2.1 with ⟨h, _⟩ | ⟨_, h⟩
      · omega
      · exact h
    obtain ⟨r, hr, _⟩ := hall (b0.val * 256 + b1.val)
    have hc := contains_wf s hs hwf b0 b1 tl r hr
    by_cases hin : tl ∈ r
    · rw [decide_eq_true hin] at hc
      rw [add_present hs _ hc]
    · rw [decide_eq_false hin] at hc
      obtain ⟨buf1, he, _⟩ := add_insert hs b0 b1 tl s hwf.1 (by simpa using hv) hc
        (Or.inr ⟨hsize, hbuf⟩) r hr hin
      rw [he]

/-! ## Sorted insertion at the lower bound -/

theorem uint16_surj (n : Nat) (hn : n < 65536) :
    ∃ c0 c1 : Byte, c0.val * 256 + c1.val = n :=
  ⟨⟨n / 256, by omega⟩, ⟨n % 256, by omega⟩, by simp only; omega⟩

theorem uint16_ne_of_ge (v : List Byte) (n : Nat) (hn : 65536 ≤ n) : Uint16 v ≠ .ok n := by
  match v with
  | [] => simp [Uint16]
  | [_] => simp [Uint16]
  | b0 :: b1 :: _ =>
    have := uint16_lt b0 b1
    simp only [Uint16, ne_eq, Except.ok.injEq]
    omega

/-- Two states that represent the same set of values hold the same bytes in
each of the 65536 buckets. -/
theorem rep_things_unique (s : Nat) (hs1 hs2 : Hashset) (vs1 vs2 : List (List Byte))
    (h1 : Rep s hs1 vs1) (h2 : Rep s hs2 vs2) (hset : ∀ v, v ∈ vs1 ↔ v ∈ vs2)
    (n : Nat) (hn : n < 65536) : hs1.things n = hs2.things n := by
  obtain ⟨c0, c1, hc⟩ := uint16_surj n hn
  obtain ⟨r1, ⟨hb1, _, hso1⟩, hm1⟩ := h1.2.2.2.1 n
  obtain ⟨r2, ⟨hb2, _, hso2⟩, hm2⟩ := h2.2.2.2.1 n
  have hmem : ∀ tl, tl ∈ r1 ↔ tl ∈ r2 := by
    intro tl
    rw [hm1 c0 c1 tl hc, hm2 c0 c1 tl hc]
    exact hset _
  have hperm : r1.Perm r2 := (List.perm_ext_iff_of_nodup hso1.nodup hso2.nodup).mpr hmem
  rw [hb1, hb2, List.eq_of_perm_of_sorted hperm hso1.le_of_lt hso2.le_of_lt]

theorem rep_size (s : Nat) (hs : Hashset) (vs : List (List Byte)) (hrep : Rep s hs vs)
    (v : List Byte) (hv : v ∈ vs) : hs.size = (s : Int) + 2 := by
  rcases hrep.1.2.1 with ⟨h0, _⟩ | ⟨h, _⟩
  · have := hrep.2.2.1 h0
    rw [this] at hv
    exact absurd hv (List.not_mem_nil v)
  · exact h

/-- Two sequences of `Add` calls on a fresh container that both complete and
add the same set of values leave the same buckets and the same element length,
whatever the order and multiplicity of the values. -/
theorem addAll_determined_by_set (vs1 vs2 : List (List Byte))
    (h1 : (Hashset.fresh.addAll vs1).fault = none) (h2 : (Hashset.fresh.addAll vs2).fault = none)
    (hset : ∀ v, v ∈ vs1 ↔ v ∈ vs2) :
    (∀ n, n < 65536 →
        (Hashset.fresh.addAll vs1).state.things n = (Hashset.fresh.addAll vs2).state.things n)
      ∧ (Hashset.fresh.addAll vs1).state.size = (Hashset.fresh.addAll vs2).state.size := by
  cases vs1 with
  | nil =>
    have : vs2 = [] := List.eq_nil_iff_forall_not_mem.mpr (fun v hv => by
      have := (hset v).mpr hv
      exact absurd this (List.not_mem_nil v))
    subst this
    exact ⟨fun _ _ => rfl, rfl⟩
  | cons v rest =>
    obtain ⟨t1, hrep1⟩ := rep_addAll (v :: rest) 1 Hashset.fresh [] (rep_fresh 1 (le_refl _)) h1
    obtain ⟨t2, hrep2⟩ := rep_addAll vs2 1 Hashset.fresh [] (rep_fresh 1 (le_refl _)) h2
    rw [List.nil_append] at hrep1 hrep2
    have hv1 : v ∈ v :: rest := List.mem_cons_self _ _
    have hv2 : v ∈ vs2 := (hset v).mp hv1
    have ht : t1 = t2 := by
      have e1 := hrep1.2.1 v hv1
      have e2 := hrep2.2.1 v hv2
      omega
    subst ht
    refine ⟨fun n hn => rep_things_unique t1 _ _ _ _ hrep1 hrep2 hset n hn, ?_⟩
    rw [rep_size t1 _ _ hrep1 v hv1, rep_size t1 _ _ hrep2 v hv2]

/-! ## `Swap` on arbitrary record positions -/

theorem slice_window (h : List Byte) (o s : Nat) (hb : o + s ≤ h.length) :
    slice h (o : Int) ((o : Int) + (s : Int)) = .ok ((h.drop o).take s) := by
  unfold slice
  rw [if_pos (by omega)]
  have e : ((o : Int) + (s : Int)).toNat - (o : Int).toNat = s := by omega
  rw [e, Int.toNat_ofNat]

theorem window_length (h : List Byte) (o s : Nat) (hb : o + s ≤ h.length) :
    ((h.drop o).take s).length = s := by
  rw [List.length_take, List.length_drop]
  omega

theorem copyAt_window (h : List Byte) (o s : Nat) (hb : o + s ≤ h.length) (src : List Byte) :
    copyAt h (o : Int) ((o : Int) + (s : Int)) src
      = .ok (h.take o ++ copy ((h.drop o).take s) src ++ h.drop (o + s)) := by
  unfold copyAt
  rw [slice_window h o s hb]
  have e : ((o : Int) + (s : Int)).toNat = o + s := by omega
  simp only [e, Int.toNat_ofNat]

theorem write_length (h r : List Byte) (o s : Nat) (hr : r.length = s) (hb : o + s ≤ h.length) :
    (h.take o ++ r ++ h.drop (o + s)).length = h.length := by
  simp only [List.length_append, List.length_take, List.length_drop, hr]
  omega

theorem window_of_write (h r : List Byte) (o s : Nat) (hr : r.length = s) (hb : o ≤ h.length) :
    ((h.take o ++ r ++ h.drop (o + s)).drop o).take s = r := by
  have hA : (h.take o).length = o := by rw [List.length_take]; omega
  rw [List.append_assoc, List.drop_left' hA, List.take_left' hr]

theorem window_before_write (h r : List Byte) (o s q : Nat) (hq : q + s ≤ o)
    (hb : o ≤ h.length) :
    ((h.take o ++ r ++ h.drop (o + s)).drop q).take s = (h.drop q).take s := by
  have hA : (h.take o).length = o := by rw [List.length_take]; omega
  have h1 : ∀ X : List Byte, ((h.take o ++ X).drop q).take s = ((h.take o).drop q).take s := by
    intro X
    rw [List.drop_append_of_le_length (by omega),
      List.take_append_of_le_length (by rw [List.length_drop]; omega)]
  rw [List.append_assoc, h1]
  conv_rhs => rw [← List.take_append_drop o h, h1]

theorem drop_after_write (h r : List Byte) (o s q : Nat) (hr : r.length = s) (hq : o + s ≤ q)
    (hb : o + s ≤ h.length) :
    (h.take o ++ r ++ h.drop (o + s)).drop q = h.drop q := by
  have hA : (h.take o ++ r).length = o + s := by
    rw [List.length_append, List.length_take, hr]; omega
  rw [List.drop_append_eq_append_drop, List.drop_of_length_le (by omega), hA, List.nil_append,
    List.drop_drop]
  congr 1
  omega

theorem write_same_window (h : List Byte) (o s : Nat) :
    h.take o ++ (h.drop o).take s ++ h.drop (o + s) = h := by
  rw [List.append_assoc, ← List.drop_drop, List.take_append_drop, List.take_append_drop]

theorem offsets_disjoint (m k s : Nat) (h : m ≠ k) :
    m * s + s ≤ k * s ∨ k * s + s ≤ m * s := by
  rcases Nat.lt_or_gt_of_ne h with h1 | h1
  · left
    have := Nat.mul_le_mul_right s (Nat.succ_le_of_lt h1)
    rw [Nat.succ_mul] at this
    exact this
  · right
    have := Nat.mul_le_mul_right s (Nat.succ_le_of_lt h1)
    rw [Nat.succ_mul] at this
    exact this

theorem window_off_write (h r : List Byte) (s m k : Nat) (hr : r.length = s) (hmk : m ≠ k)
    (hb : k * s + s ≤ h.length) :
    ((h.take (k * s) ++ r ++ h.drop (k * s + s)).drop (m * s)).take s
      = (h.drop (m * s)).take s := by
  rcases offsets_disjoint m k s hmk with hd | hd
  · exact window_before_write h r (k * s) s (m * s) hd (by omega)
  · rw [drop_after_write h r (k * s) s (m * s) hr hd hb]

/-- `Swap(i, j)` on records that lie inside `hashes`, with a scratch buffer of
at least one record: record `i` is copied to the buffer, record `j` is written
over record `i`, and the buffer is written over record `j`. -/
theorem swap_general (buf h : List Byte) (s i j : Nat) (hbuf : s ≤ buf.length)
    (hi : i * s + s ≤ h.length) (hj : j * s + s ≤ h.length) :
    hashSorter.Swap ⟨buf, h, s⟩ i j
      = ⟨⟨(h.drop (i * s)).take s ++ buf.drop s,
          (h.take (i * s) ++ (h.drop (j * s)).take s ++ h.drop (i * s + s)).take (j * s)
            ++ (h.drop (i * s)).take s
            ++ (h.take (i * s) ++ (h.drop (j * s)).take s ++ h.drop (i * s + s)).drop (j * s + s),
          s⟩, none⟩ := by
  have hwi := window_length h (i * s) s hi
  have hwj := window_length h (j * s) s hj
  have hl2 := write_length h ((h.drop (j * s)).take s) (i * s) s hwj hi
  have ci : (((i : Nat) : Int) * (s : Int)) = ((i * s : Nat) : Int) := by push_cast; rfl
  have cj : (((j : Nat) : Int) * (s : Int)) = ((j * s : Nat) : Int) := by push_cast; rfl
  unfold hashSorter.Swap
  simp only [ci, cj]
  rw [slice_window h (i * s) s hi]
  simp only
  rw [slice_window h (j * s) s hj]
  simp only
  rw [copyAt_window h (i * s) s hi, copy_same_length _ _ (by rw [hwi, hwj])]
  simp only
  rw [copyAt_window _ (j * s) s (by rw [hl2]; exact hj),
    copy_into_buf buf _ (by rw [hwi]; exact hbuf), hwi,
    copy_from_buf _ _ _ (by rw [hwi, window_length _ (j * s) s (by rw [hl2]; exact hj)])]

/-- C11: in every reachable state, when `Add(v)` returns normally for a value `v`
that starts with the bytes `b0, b1`, every bucket other than the one at index
`256 * b0 + b1` holds the same bytes as before, and `Contains` answers exactly as
before for every value whose first two bytes differ from `b0, b1`. -/
theorem add_frames_other_buckets (hs : Hashset) (h : Reachable hs) (b0 b1 : Byte)
    (tl : List Byte) (_hok : (hs.Add (b0 :: b1 :: tl)).fault = none) :
    (∀ m, m ≠ 256 * b0.val + b1.val →
        (hs.Add (b0 :: b1 :: tl)).state.things m = hs.things m)
      ∧ ∀ (c0 c1 : Byte) (w : List Byte), (c0 ≠ b0 ∨ c1 ≠ b1) →
          (hs.Add (b0 :: b1 :: tl)).state.Contains (c0 :: c1 :: w)
            = hs.Contains (c0 :: c1 :: w) := by
  have hframe : ∀ m, m ≠ 256 * b0.val + b1.val →
      (hs.Add (b0 :: b1 :: tl)).state.things m = hs.things m := by
    intro m hm
    apply add_things_other
    simp only [Uint16, ne_eq, Except.ok.injEq]
    omega
  refine ⟨hframe, ?_⟩
  intro c0 c1 w hdiff
  have hidx : c0.val * 256 + c1.val ≠ 256 * b0.val + b1.val := by
    intro e
    obtain ⟨e0, e1⟩ := uint16_inj b0 b1 c0 c1 (by omega)
    rcases hdiff with hd | hd
    · exact hd e0
    · exact hd e1
  by_cases h0 : hs.size = 0
  · obtain ⟨s, vs, hrep⟩ := reachable_rep hs h
    obtain ⟨_, hempty, _⟩ := rep_rescale s hs vs hrep h0 1 (le_refl _)
    rw [contains_empty hs c0 c1 w (hempty _),
      contains_empty _ c0 c1 w (by rw [hframe _ hidx]; exact hempty _)]
  · apply contains_congr _ _ _ (add_size_fixed hs _ h0)
    intro n hn
    simp only [Uint16, Except.ok.injEq] at hn
    rw [← hn]
    exact hframe _ hidx

/-- Instance of C11: adding a value of bucket 0x0002 leaves bucket 0x0001 and a
query into it untouched. -/
theorem add_frames_other_buckets_witness :
    ((Hashset.fresh.Add [0x00, 0x01, 0xAA, 0xBB]).state.Add [0x00, 0x02, 0x00, 0x00]).state.things 1
        = (Hashset.fresh.Add [0x00, 0x01, 0xAA, 0xBB]).state.things 1
      ∧ ((Hashset.fresh.Add [0x00, 0x01, 0xAA, 0xBB]).state.Add
            [0x00, 0x02, 0x00, 0x00]).state.Contains [0x00, 0x01, 0xAA, 0xBB]
          = (Hashset.fresh.Add [0x00, 0x01, 0xAA, 0xBB]).state.Contains [0x00, 0x01, 0xAA, 0xBB] :=
  ⟨(add_frames_other_buckets (Hashset.fresh.Add [0x00, 0x01, 0xAA, 0xBB]).state
      (Reachable.add Hashset.fresh [0x00, 0x01, 0xAA, 0xBB] Reachable.fresh (by decide))
      0x00 0x02 [0x00, 0x00] (by decide)).1 1 (by decide),
   (add_frames_other_buckets (Hashset.fresh.Add [0x00, 0x01, 0xAA, 0xBB]).state
      (Reachable.add Hashset.fresh [0x00, 0x01, 0xAA, 0xBB] Reachable.fresh (by decide))
      0x00 0x02 [0x00, 0x00] (by decide)).2 0x00 0x01 [0xAA, 0xBB] (by decide)⟩

/-- C12: when an `Add(v0)` on a reachable state returns normally, the element
length `L` it leaves is non-zero and is the length of `v0`; every later sequence
of `Add` calls, whether it completes or aborts, leaves `L` as it is, and every
value of a sequence that completes has length `L`.  (`Contains` and `Len` assign
no field, so they return no state at all.) -/
theorem element_length_fixed_once (hs : Hashset) (h : Reachable hs) (v0 : List Byte)
    (hok : (hs.Add v0).fault = none) (vs : List (List Byte)) :
    (hs.Add v0).state.size ≠ 0
      ∧ (v0.length : Int) = (hs.Add v0).state.size
      ∧ ((hs.Add v0).state.addAll vs).state.size = (hs.Add v0).state.size
      ∧ (((hs.Add v0).state.addAll vs).fault = none →
          ∀ v ∈ vs, (v.length : Int) = (hs.Add v0).state.size) := by
  obtain ⟨s, ws, hrep⟩ := reachable_rep hs h
  obtain ⟨t, _, hlen, hsize⟩ := rep_add s hs ws v0 hrep hok
  have h0 : (hs.Add v0).state.size ≠ 0 := by rw [hsize]; omega
  obtain ⟨h1, h2⟩ := addAll_size_fixed vs (hs.Add v0).state h0
  exact ⟨h0, hsize.symm, h1, h2⟩

/-- Instance of C12: after the first addition of a four-byte value, a sequence
that ends in a rejected three-byte value leaves the element length at 4. -/
theorem element_length_fixed_once_witness :
    (Hashset.fresh.Add [0x00, 0x01, 0xAA, 0xBB]).state.size ≠ 0
      ∧ ((Hashset.fresh.Add [0x00, 0x01, 0xAA, 0xBB]).state.addAll
          [[0x00, 0x01, 0x11, 0x22], [0x00, 0x01, 0xAA]]).state.size
          = (Hashset.fresh.Add [0x00, 0x01, 0xAA, 0xBB]).state.size :=
  ⟨(element_length_fixed_once Hashset.fresh Reachable.fresh [0x00, 0x01, 0xAA, 0xBB]
      (by decide) [[0x00, 0x01, 0x11, 0x22], [0x00, 0x01, 0xAA]]).1,
   (element_length_fixed_once Hashset.fresh Reachable.fresh [0x00, 0x01, 0xAA, 0xBB]
      (by decide) [[0x00, 0x01, 0x11, 0x22], [0x00, 0x01, 0xAA]]).2.2.1⟩

/-- C13: in every reachable state (fresh or with element length `L`), when
`Contains(v)` is `false` and `Add(v)` returns normally for `v = b0, b1, tl`, the
bucket at index `256 * b0 + b1` afterwards consists of whole payloads, which
are the payloads it held before together with `tl` (the same multiset plus one
element), in strictly ascending order under `bytes.Compare`. -/
theorem add_new_inserts_payload (hs : Hashset) (h : Reachable hs) (b0 b1 : Byte)
    (tl : List Byte) (hc : hs.Contains (b0 :: b1 :: tl) = .ok false)
    (hok : (hs.Add (b0 :: b1 :: tl)).fault = none) :
    (payloads ((hs.Add (b0 :: b1 :: tl)).state.things (256 * b0.val + b1.val))
        ((hs.Add (b0 :: b1 :: tl)).state.size - 2)).flatten
        = (hs.Add (b0 :: b1 :: tl)).state.things (256 * b0.val + b1.val)
      ∧ (payloads ((hs.Add (b0 :: b1 :: tl)).state.things (256 * b0.val + b1.val))
          ((hs.Add (b0 :: b1 :: tl)).state.size - 2)).Perm
          (tl :: payloads (hs.things (256 * b0.val + b1.val)) (tl.length : Int))
      ∧ List.Pairwise (fun x y => bytesCompare x y < 0)
          (payloads ((hs.Add (b0 :: b1 :: tl)).state.things (256 * b0.val + b1.val))
            ((hs.Add (b0 :: b1 :: tl)).state.size - 2)) := by
  obtain ⟨s, vs, hrep⟩ := reachable_rep hs h
  obtain ⟨recs, buf1, hpos, hb, hnot, he⟩ := add_new_state s hs vs hrep b0 b1 tl hc hok
  have hnew := bucketOf_orderedInsert tl.length hpos _ recs hb tl rfl hnot
  have hidx : 256 * b0.val + b1.val = b0.val * 256 + b1.val := by omega
  have hw : (tl.length : Int) + 2 - 2 = (tl.length : Int) := by omega
  rw [he, hidx]
  simp only [setBucket_same, hw]
  rw [payloads_flatten _ tl.length hpos hnew.2.1, hb.1, payloads_flatten recs tl.length hpos hb.2.1]
  refine ⟨rfl, List.perm_orderedInsert _ tl recs, ?_⟩
  exact List.Pairwise.imp (fun hab => (bytesCompare_lt_iff _ _).mpr hab) hnew.2.2

/-- Instance of C13: 0x1122 added to bucket 0x0001, which holds 0xAABB. -/
theorem add_new_inserts_payload_witness :
    (payloads (((Hashset.fresh.Add [0x00, 0x01, 0xAA, 0xBB]).state.Add
          [0x00, 0x01, 0x11, 0x22]).state.things (256 * (0x00 : Byte).val + (0x01 : Byte).val))
        (((Hashset.fresh.Add [0x00, 0x01, 0xAA, 0xBB]).state.Add
          [0x00, 0x01, 0x11, 0x22]).state.size - 2)).Perm
      ([0x11, 0x22] :: payloads ((Hashset.fresh.Add [0x00, 0x01, 0xAA, 0xBB]).state.things
          (256 * (0x00 : Byte).val + (0x01 : Byte).val))
        ((([0x11, 0x22] : List Byte).length : Nat) : Int)) :=
  (add_new_inserts_payload (Hashset.fresh.Add [0x00, 0x01, 0xAA, 0xBB]).state
    (Reachable.add Hashset.fresh [0x00, 0x01, 0xAA, 0xBB] Reachable.fresh (by decide))
    0x00 0x01 [0x11, 0x22] (by decide) (by decide)).2.1

/-- C14: in every state (reachable or not) in which `Contains(v)` is `true`,
`Add(v)` returns normally and leaves the state as it is: every bucket holds the
same bytes and the element length is unchanged. -/
theorem add_of_member_changes_nothing (hs : Hashset) (v : List Byte)
    (hc : hs.Contains v = .ok true) :
    (hs.Add v).fault = none ∧ (hs.Add v).state = hs
      ∧ (∀ n, (hs.Add v).state.things n = hs.things n)
      ∧ (hs.Add v).state.size = hs.size := by
  rw [add_present hs v hc]
  exact ⟨rfl, rfl, fun _ => rfl, rfl⟩

/-- Instance of C14: the value just added is added again. -/
theorem add_of_member_changes_nothing_witness :
    (Hashset.fresh.Add [0x00, 0x01, 0xAA, 0xBB]).state.Contains [0x00, 0x01, 0xAA, 0xBB]
        = .ok true
      ∧ ((Hashset.fresh.Add [0x00, 0x01, 0xAA, 0xBB]).state.Add [0x00, 0x01, 0xAA, 0xBB]).fault
          = none
      ∧ ((Hashset.fresh.Add [0x00, 0x01, 0xAA, 0xBB]).state.Add [0x00, 0x01, 0xAA, 0xBB]).state
          = (Hashset.fresh.Add [0x00, 0x01, 0xAA, 0xBB]).state :=
  ⟨by decide,
   (add_of_member_changes_nothing (Hashset.fresh.Add [0x00, 0x01, 0xAA, 0xBB]).state
      [0x00, 0x01, 0xAA, 0xBB] (by decide)).1,
   (add_of_member_changes_nothing (Hashset.fresh.Add [0x00, 0x01, 0xAA, 0xBB]).state
      [0x00, 0x01, 0xAA, 0xBB] (by decide)).2.1⟩

/-- C16 (as stated, refuted): in the state the first `Add` of the two-byte value
`[0, 1]` leaves behind (element length 2, payload width 0), `Len()` does not
return; it panics with a division by zero. -/
theorem len_divides_by_zero_at_length_two :
    (Hashset.fresh.Add [0x00, 0x01]).state.size = 2
      ∧ (Hashset.fresh.Add [0x00, 0x01]).state.Len = .error .divideByZero :=
  ⟨by decide, len_zero_width _ (by decide)⟩

/-- C16 (amended): `Len` has no guard for a zero payload width.  In every state
whose element length is 2, `Len()` panics with a division by zero; in every
other state, the fresh one included, it returns a value; and no state reachable
through `Add` calls that return normally has element length 2. -/
theorem len_total_except_length_two (hs : Hashset) :
    (hs.size = 2 → hs.Len = .error .divideByZero)
      ∧ (hs.size ≠ 2 → ∃ k, hs.Len = .ok k)
      ∧ (Reachable hs → hs.size ≠ 2) := by
  refine ⟨len_zero_width hs, len_nonzero_width hs, ?_⟩
  intro h
  obtain ⟨s, vs, hrep⟩ := reachable_rep hs h
  exact rep_size_ne_two s hs vs hrep

/-- Instance of C16 (amended): `Len` after the first addition of a four-byte value. -/
theorem len_total_except_length_two_witness :
    (Hashset.fresh.Add [0x00, 0x01, 0xAA, 0xBB]).state.size ≠ 2
      ∧ ∃ k, (Hashset.fresh.Add [0x00, 0x01, 0xAA, 0xBB]).state.Len = .ok k :=
  ⟨by decide,
   (len_total_except_length_two (Hashset.fresh.Add [0x00, 0x01, 0xAA, 0xBB]).state).2.1
      (by decide)⟩

/-- C17: in every reachable state the byte length of every bucket is a multiple
of `size - 2`; the bucket is exactly the concatenation of its payloads, each
`size - 2` bytes long, and their number is `len(bucket) / (size - 2)`, the count
used by `Len` and by the search in `Contains`. -/
theorem buckets_hold_whole_payloads (hs : Hashset) (h : Reachable hs) (n : Nat) :
    (hs.size - 2) ∣ ((hs.things n).length : Int)
      ∧ (payloads (hs.things n) (hs.size - 2)).flatten = hs.things n
      ∧ (∀ p ∈ payloads (hs.things n) (hs.size - 2), (p.length : Int) = hs.size - 2)
      ∧ ((payloads (hs.things n) (hs.size - 2)).length : Int)
          = Int.tdiv ((hs.things n).length : Int) (hs.size - 2) := by
  obtain ⟨s, vs, ⟨hs1, hsz, hall⟩, _⟩ := reachable_rep hs h
  rcases hsz with ⟨_, hempty⟩ | ⟨hsize, _⟩
  · rw [hempty, payloads_nil]
    simp
  · obtain ⟨recs, hbin, hlen, _⟩ := hall n
    have e : hs.size - 2 = (s : Int) := by omega
    have hflen := length_flatten_uniform recs s hlen
    rw [e, hbin, payloads_flatten recs s hs1 hlen, hflen]
    refine ⟨⟨recs.length, by push_cast; ring⟩, rfl, ?_, ?_⟩
    · intro p hp
      rw [hlen p hp]
    · push_cast
      rw [Int.mul_tdiv_cancel _ (by omega)]

/-- Instance of C17: bucket 0x0001 after two additions. -/
theorem buckets_hold_whole_payloads_witness :
    (payloads ((Hashset.fresh.addAll [[0x00, 0x01, 0xAA, 0xBB],
          [0x00, 0x01, 0x11, 0x22]]).state.things 1)
        ((Hashset.fresh.addAll [[0x00, 0x01, 0xAA, 0xBB],
          [0x00, 0x01, 0x11, 0x22]]).state.size - 2)).flatten
      = (Hashset.fresh.addAll [[0x00, 0x01, 0xAA, 0xBB],
          [0x00, 0x01, 0x11, 0x22]]).state.things 1 :=
  (buckets_hold_whole_payloads _
    (Reachable.add _ [0x00, 0x01, 0x11, 0x22]
      (Reachable.add Hashset.fresh [0x00, 0x01, 0xAA, 0xBB] Reachable.fresh (by decide))
      (by decide)) 1).2.1

/-- C18: in every reachable state `hs`, for values `a` and `b` of the same
length whose additions to `hs` each return normally, both orders of adding the
two return normally and leave the same bytes in every bucket and the same
element length.  (For whole sequences from the fresh state this is
`addAll_determined_by_set`: the buckets depend only on the set of values.) -/
theorem add_order_independent (hs : Hashset) (h : Reachable hs) (a b : List Byte)
    (hlen : a.length = b.length) (ha : (hs.Add a).fault = none)
    (hb : (hs.Add b).fault = none) :
    ((hs.Add a).state.Add b).fault = none ∧ ((hs.Add b).state.Add a).fault = none
      ∧ (∀ n, ((hs.Add a).state.Add b).state.things n = ((hs.Add b).state.Add a).state.things n)
      ∧ ((hs.Add a).state.Add b).state.size = ((hs.Add b).state.Add a).state.size := by
  obtain ⟨s, ws, hrep⟩ := reachable_rep hs h
  obtain ⟨ta, hrepa, hla, hsa⟩ := rep_add s hs ws a hrep ha
  obtain ⟨tb, hrepb, hlb, hsb⟩ := rep_add s hs ws b hrep hb
  have htb : tb = ta := by omega
  subst htb
  have hab : ((hs.Add a).state.Add b).fault = none :=
    add_ok_of_length tb _ _ hrepa (by rw [hsa, hla]; push_cast; rfl) b hlb
  have hba : ((hs.Add b).state.Add a).fault = none :=
    add_ok_of_length tb _ _ hrepb (by rw [hsb, hlb]; push_cast; rfl) a hla
  obtain ⟨t1, hrep1, hl1, hs1⟩ := rep_add tb _ _ b hrepa hab
  obtain ⟨t2, hrep2, hl2, hs2⟩ := rep_add tb _ _ a hrepb hba
  have ht1 : t1 = tb := by omega
  have ht2 : t2 = tb := by omega
  subst ht1 ht2
  refine ⟨hab, hba, ?_, by rw [hs1, hs2, hlen]⟩
  intro n
  by_cases hn : n < 65536
  · refine rep_things_unique _ _ _ _ _ hrep1 hrep2 ?_ n hn
    intro v
    simp only [List.mem_append, List.mem_singleton]
    constructor
    · rintro ((h | h) | h)
      · exact Or.inl (Or.inl h)
      · exact Or.inr h
      · exact Or.inl (Or.inr h)
    · rintro ((h | h) | h)
      · exact Or.inl (Or.inl h)
      · exact Or.inr h
      · exact Or.inl (Or.inr h)
  · have hge : 65536 ≤ n := by omega
    rw [add_things_other _ b n (uint16_ne_of_ge b n hge),
      add_things_other _ a n (uint16_ne_of_ge a n hge),
      add_things_other _ a n (uint16_ne_of_ge a n hge),
      add_things_other _ b n (uint16_ne_of_ge b n hge)]

/-- Instance of C18: 0xAABB and 0x1122 added to bucket 0x0001 in either order. -/
theorem add_order_independent_witness :
    ((Hashset.fresh.Add [0x00, 0x01, 0xAA, 0xBB]).state.Add [0x00, 0x01, 0x11, 0x22]).state.things 1
        = ((Hashset.fresh.Add [0x00, 0x01, 0x11, 0x22]).state.Add
            [0x00, 0x01, 0xAA, 0xBB]).state.things 1
      ∧ ((Hashset.fresh.Add [0x00, 0x01, 0xAA, 0xBB]).state.Add
            [0x00, 0x01, 0x11, 0x22]).state.size
          = ((Hashset.fresh.Add [0x00, 0x01, 0x11, 0x22]).state.Add
              [0x00, 0x01, 0xAA, 0xBB]).state.size :=
  ⟨(add_order_independent Hashset.fresh Reachable.fresh [0x00, 0x01, 0xAA, 0xBB]
      [0x00, 0x01, 0x11, 0x22] (by decide) (by decide) (by decide)).2.2.1 1,
   (add_order_independent Hashset.fresh Reachable.fresh [0x00, 0x01, 0xAA, 0xBB]
      [0x00, 0x01, 0x11, 0x22] (by decide) (by decide) (by decide)).2.2.2⟩

/-- C19: in every reachable state with an established element length `L`,
`Contains(v)` returns `false` without any fault for every value `v` of at least
two bytes whose length differs from `L`, whether or not the bucket selected by
its first two bytes is empty. -/
theorem contains_rejects_wrong_length (hs : Hashset) (h : Reachable hs) (v : List Byte)
    (h0 : hs.size ≠ 0) (h2 : 2 ≤ v.length) (hne : (v.length : Int) ≠ hs.size) :
    hs.Contains v = .ok false := by
  obtain ⟨s, vs, hrep⟩ := reachable_rep hs h
  have hnot : v ∉ vs := by
    intro hv
    have hlen := hrep.2.1 v hv
    rcases hrep.1.2.1 with ⟨hz, _⟩ | ⟨hsize, _⟩
    · exact h0 hz
    · apply hne; rw [hsize, hlen]; push_cast; rfl
  rw [rep_contains s hs vs hrep v h2, decide_eq_false hnot]

/-- Instance of C19: a three-byte query into the non-empty bucket 0x0001 of a
container of four-byte values. -/
theorem contains_rejects_wrong_length_witness :
    (Hashset.fresh.Add [0x00, 0x01, 0xAA, 0xBB]).state.things 1 ≠ []
      ∧ (Hashset.fresh.Add [0x00, 0x01, 0xAA, 0xBB]).state.Contains [0x00, 0x01, 0xAA]
          = .ok false :=
  ⟨by decide,
   contains_rejects_wrong_length (Hashset.fresh.Add [0x00, 0x01, 0xAA, 0xBB]).state
    (Reachable.add Hashset.fresh [0x00, 0x01, 0xAA, 0xBB] Reachable.fresh (by decide))
    [0x00, 0x01, 0xAA] (by decide) (by decide) (by decide)⟩

/-- C20: for every `hashSorter` with record size `size ≥ 1`, a scratch buffer of
at least `size` bytes, and indices `i`, `j` both below `len(hashes) / size`,
`Swap(i, j)` returns normally; afterwards record `i` is the former record `j`,
record `j` is the former record `i`, every other record is unchanged, and the
length of `hashes` and the record size are unchanged; for `i = j` the bytes of
`hashes` are as they were. -/
theorem swap_exchanges_records (p : hashSorter) (hs1 : 1 ≤ p.size)
    (hbuf : p.size ≤ (p.buf.length : Int)) (i j : Nat)
    (hi : (i : Int) < Int.tdiv (p.hashes.length : Int) p.size)
    (hj : (j : Int) < Int.tdiv (p.hashes.length : Int) p.size) :
    (p.Swap i j).fault = none
      ∧ (p.Swap i j).state.record i = p.record j
      ∧ (p.Swap i j).state.record j = p.record i
      ∧ (∀ m, m ≠ i → m ≠ j → (p.Swap i j).state.record m = p.record m)
      ∧ (p.Swap i j).state.hashes.length = p.hashes.length
      ∧ (p.Swap i j).state.size = p.size
      ∧ (i = j → (p.Swap i j).state.hashes = p.hashes) := by
  obtain ⟨buf, h, size⟩ := p
  simp only at hs1 hbuf hi hj
  obtain ⟨s, rfl⟩ : ∃ s : Nat, size = (s : Int) :=
    ⟨size.toNat, (Int.toNat_of_nonneg (by omega)).symm⟩
  have hs0 : 0 < s := by omega
  have hsb : s ≤ buf.length := by omega
  rw [← Int.ofNat_tdiv] at hi hj
  have bound : ∀ k : Nat, (k : Int) < ((h.length / s : Nat) : Int) → k * s + s ≤ h.length := by
    intro k hk
    have h1 : k + 1 ≤ h.length / s := by omega
    have h2 := (Nat.le_div_iff_mul_le hs0).mp h1
    rw [Nat.add_mul, Nat.one_mul] at h2
    exact h2
  have hi1 := bound i hi
  have hj1 := bound j hj
  have hwi := window_length h (i * s) s hi1
  have hwj := window_length h (j * s) s hj1
  have hl2 := write_length h ((h.drop (j * s)).take s) (i * s) s hwj hi1
  rw [swap_general buf h s i j hsb hi1 hj1]
  simp only [hashSorter.record, Int.toNat_ofNat]
  refine ⟨trivial, ?_, ?_, ?_, ?_, trivial, ?_⟩
  · by_cases hij : i = j
    · subst hij
      rw [window_of_write _ _ (i * s) s hwi (by rw [hl2]; omega)]
    · rw [window_off_write _ _ s i j hwi hij (by rw [hl2]; exact hj1),
        window_of_write h _ (i * s) s hwj (by omega)]
  · rw [window_of_write _ _ (j * s) s hwi (by rw [hl2]; omega)]
  · intro m hmi hmj
    rw [window_off_write _ _ s m j hwi hmj (by rw [hl2]; exact hj1),
      window_off_write h _ s m i hwj hmi hi1]
  · rw [write_length _ _ (j * s) s hwi (by rw [hl2]; exact hj1), hl2]
  · intro hij
    subst hij
    rw [write_same_window h (i * s) s, write_same_window h (i * s) s]

/-- Instance of C20: the two records of a four-byte bucket are exchanged. -/
theorem swap_exchanges_records_witness :
    (hashSorter.Swap ⟨[0, 0, 0, 0], [0xAA, 0xBB, 0x11, 0x22], 2⟩ 1 0).fault = none
      ∧ (hashSorter.Swap ⟨[0, 0, 0, 0], [0xAA, 0xBB, 0x11, 0x22], 2⟩ 1 0).state.record 1
          = hashSorter.record ⟨[0, 0, 0, 0], [0xAA, 0xBB, 0x11, 0x22], 2⟩ 0
      ∧ (hashSorter.Swap ⟨[0, 0, 0, 0], [0xAA, 0xBB, 0x11, 0x22], 2⟩ 1 0).state.record 0
          = hashSorter.record ⟨[0, 0, 0, 0], [0xAA, 0xBB, 0x11, 0x22], 2⟩ 1 :=
  ⟨(swap_exchanges_records ⟨[0, 0, 0, 0], [0xAA, 0xBB, 0x11, 0x22], 2⟩ (by decide) (by decide)
      1 0 (by decide) (by decide)).1,
   (swap_exchanges_records ⟨[0, 0, 0, 0], [0xAA, 0xBB, 0x11, 0x22], 2⟩ (by decide) (by decide)
      1 0 (by decide) (by decide)).2.1,
   (swap_exchanges_records ⟨[0, 0, 0, 0], [0xAA, 0xBB, 0x11, 0x22], 2⟩ (by decide) (by decide)
      1 0 (by decide) (by decide)).2.2.1⟩

end hashset
